import Mathlib

/-!
Shallow embedding of `codex-rs/core/src/memories.rs` and proofs about the
memory-extraction pipeline: store-file parsing, candidate parsing, the
multi-path read/merge, and the append writer.

Text is modelled as `List Char` (a Rust `&str` viewed as its characters) and
file bytes as `List Nat` (each entry one byte).  Library functions the Rust
code calls (`str::trim`, `str::lines`, `String::from_utf8_lossy`, UTF-8
encoding of written strings) are modelled faithfully below.
-/

namespace Memories

/-- Rust `char::is_whitespace`: the Unicode `White_Space` property. -/
def isRustWhitespace (c : Char) : Prop :=
  let n := c.toNat
  (0x09 ≤ n ∧ n ≤ 0x0D) ∨ n = 0x20 ∨ n = 0x85 ∨ n = 0xA0 ∨ n = 0x1680 ∨
    (0x2000 ≤ n ∧ n ≤ 0x200A) ∨ n = 0x2028 ∨ n = 0x2029 ∨ n = 0x202F ∨
    n = 0x205F ∨ n = 0x3000

instance (c : Char) : Decidable (isRustWhitespace c) := by
  unfold isRustWhitespace; infer_instance

/-- Model of `str::trim_start`: drop leading whitespace. -/
def trimStart (s : List Char) : List Char :=
  s.dropWhile (fun c => decide (isRustWhitespace c))

/-- Model of `str::trim_end`: drop trailing whitespace. -/
def trimEnd : List Char → List Char
  | [] => []
  | c :: rest =>
    match trimEnd rest with
    | [] => if isRustWhitespace c then [] else [c]
    | r => c :: r

/-- Model of `str::trim`: drop leading and trailing whitespace. -/
def rustTrim (s : List Char) : List Char :=
  trimEnd (trimStart s)

/-- Split a character list at every newline character, keeping all (possibly
empty) fields, like `str::split('\n')`. -/
def splitNl : List Char → List (List Char)
  | [] => [[]]
  | c :: rest =>
    if c = '\n' then [] :: splitNl rest
    else
      match splitNl rest with
      | l :: ls => (c :: l) :: ls
      | [] => [[c]]

/-- Remove one trailing carriage return, as Rust `str::lines` does per line. -/
def stripCr (l : List Char) : List Char :=
  if l.getLast? = some '\r' then l.dropLast else l

/-- Drop a final empty field, so that a trailing newline does not produce an
extra empty line (Rust `str::lines` behaviour). -/
def dropLastEmptyLine (parts : List (List Char)) : List (List Char) :=
  if parts.getLast? = some [] then parts.dropLast else parts

/-- Model of Rust `str::lines`. -/
def rustLines (s : List Char) : List (List Char) :=
  (dropLastEmptyLine (splitNl s)).map stripCr

/-- Model of `str::to_ascii_lowercase` (character-wise). -/
def toAsciiLower (s : List Char) : List Char :=
  s.map (fun c => if 'A' ≤ c ∧ c ≤ 'Z' then Char.ofNat (c.toNat + 32) else c)

/-- Model of `str::eq_ignore_ascii_case`. -/
def eqIgnoreAsciiCase (a b : List Char) : Prop :=
  toAsciiLower a = toAsciiLower b

instance (a b : List Char) : Decidable (eqIgnoreAsciiCase a b) := by
  unfold eqIgnoreAsciiCase; infer_instance

/-- Model of `trimmed.strip_prefix("- ").or_else(|| trimmed.strip_prefix("* "))`
from `parse_memories` / `parse_memory_candidates`. -/
def stripBullet : List Char → Option (List Char)
  | '-' :: ' ' :: rest => some rest
  | '*' :: ' ' :: rest => some rest
  | _ => none

/-! ### Constants of `memories.rs` -/

def MEMORIES_HEADER : List Char := "## Memories".toList

def MEMORIES_FILE_HEADER : List Char := "# Memories".toList

def MEMORIES_MAX_BYTES : Nat := 8 * 1024

def MEMORIES_PROMPT_MAX_BYTES : Nat := 2000

def MAX_NEW_MEMORIES_PER_TURN : Nat := 6

def NO_MEMORIES_RESPONSE : List Char := "NO_MEMORIES".toList

/-! ### `parse_memories` -/

/-- The `for line in text.lines()` loop of `parse_memories`, threading the
`bullets` and `lines` accumulators. -/
def parseMemoriesLoop : List (List Char) → List (List Char) → List (List Char) →
    List (List Char) × List (List Char)
  | [], bullets, plains => (bullets, plains)
  | line :: rest, bullets, plains =>
    let trimmed := rustTrim line
    if trimmed.isEmpty ∨ trimmed.head? = some '#' then
      parseMemoriesLoop rest bullets plains
    else
      match stripBullet trimmed with
      | some entry => parseMemoriesLoop rest (bullets ++ [rustTrim entry]) plains
      | none => parseMemoriesLoop rest bullets (plains ++ [trimmed])

/-- Model of `parse_memories`: collect bullet bodies and plain lines, return
the bullets when any exist, the plain lines otherwise. -/
def parse_memories (text : List Char) : List (List Char) :=
  let p := parseMemoriesLoop (rustLines text) [] []
  if p.1.isEmpty then p.2 else p.1

/-! ### `parse_memory_candidates` -/

/-- The per-line loop of `parse_memory_candidates`, building the raw `entries`
list before deduplication. -/
def parseCandidatesLoop : List (List Char) → List (List Char) → List (List Char)
  | [], acc => acc
  | line :: rest, acc =>
    let l := rustTrim line
    if l.isEmpty ∨ eqIgnoreAsciiCase l NO_MEMORIES_RESPONSE then
      parseCandidatesLoop rest acc
    else
      match stripBullet l with
      | some entry => parseCandidatesLoop rest (acc ++ [rustTrim entry])
      | none => parseCandidatesLoop rest (acc ++ [l])

/-- The deduplication loop of `parse_memory_candidates`: `seen` is the set of
lowercase keys already inserted (modelled as a list). -/
def dedupLoop : List (List Char) → List (List Char) → List (List Char) →
    List (List Char)
  | [], deduped, _ => deduped
  | e :: es, deduped, seen =>
    let key := toAsciiLower e
    if key ∈ seen then dedupLoop es deduped seen
    else dedupLoop es (deduped ++ [e]) (key :: seen)

/-- Model of `parse_memory_candidates`. -/
def parse_memory_candidates (text : List Char) : List (List Char) :=
  let trimmed := rustTrim text
  if trimmed.isEmpty ∨ eqIgnoreAsciiCase trimmed NO_MEMORIES_RESPONSE then []
  else dedupLoop (parseCandidatesLoop (rustLines trimmed) []) [] []

/-! ### `build_memories_section` -/

/-- Model of `build_memories_section`. -/
def build_memories_section (entries : List (List Char)) : Option (List Char) :=
  if entries.isEmpty then none
  else
    some (List.intercalate ['\n']
      (MEMORIES_HEADER :: entries.map (fun e => '-' :: ' ' :: e)))

/-! ### UTF-8

`read_memories_file` works on raw bytes (`fs::read` +
`String::from_utf8_lossy`) and the writer emits UTF-8 bytes.  We model a byte
as a `Nat` and give an encoder plus a lossy decoder following the
maximal-subpart substitution policy used by `String::from_utf8_lossy`. -/

/-- UTF-8 encoding of a single scalar value. -/
def utf8EncodeNat (n : Nat) : List Nat :=
  if n < 0x80 then [n]
  else if n < 0x800 then [0xC0 + n / 64, 0x80 + n % 64]
  else if n < 0x10000 then
    [0xE0 + n / 4096, 0x80 + n / 64 % 64, 0x80 + n % 64]
  else
    [0xF0 + n / 262144, 0x80 + n / 4096 % 64, 0x80 + n / 64 % 64, 0x80 + n % 64]

/-- UTF-8 encoding of a character. -/
def utf8EncodeChar (c : Char) : List Nat :=
  utf8EncodeNat c.toNat

/-- UTF-8 encoding of a string. -/
def utf8Encode (s : List Char) : List Nat :=
  (s.map utf8EncodeChar).flatten

/-- The replacement character U+FFFD. -/
def replChar : Char := Char.ofNat 0xFFFD

/-- Decode one UTF-8 unit: given the first byte and the remaining bytes,
return the decoded character (or U+FFFD) and how many of the remaining bytes
belong to the unit. -/
def utf8Step (b : Nat) (rest : List Nat) : Char × Nat :=
  if b < 0x80 then (Char.ofNat b, 0)
  else if 0xC2 ≤ b ∧ b ≤ 0xDF then
    match rest with
    | b2 :: _ =>
      if 0x80 ≤ b2 ∧ b2 ≤ 0xBF then
        (Char.ofNat ((b - 0xC0) * 64 + (b2 - 0x80)), 1)
      else (replChar, 0)
    | [] => (replChar, 0)
  else if 0xE0 ≤ b ∧ b ≤ 0xEF then
    match rest with
    | b2 :: rest2 =>
      if (if b = 0xE0 then 0xA0 else 0x80) ≤ b2 ∧
          b2 ≤ (if b = 0xED then 0x9F else 0xBF) then
        match rest2 with
        | b3 :: _ =>
          if 0x80 ≤ b3 ∧ b3 ≤ 0xBF then
            (Char.ofNat ((b - 0xE0) * 4096 + (b2 - 0x80) * 64 + (b3 - 0x80)), 2)
          else (replChar, 1)
        | [] => (replChar, 1)
      else (replChar, 0)
    | [] => (replChar, 0)
  else if 0xF0 ≤ b ∧ b ≤ 0xF4 then
    match rest with
    | b2 :: rest2 =>
      if (if b = 0xF0 then 0x90 else 0x80) ≤ b2 ∧
          b2 ≤ (if b = 0xF4 then 0x8F else 0xBF) then
        match rest2 with
        | b3 :: rest3 =>
          if 0x80 ≤ b3 ∧ b3 ≤ 0xBF then
            match rest3 with
            | b4 :: _ =>
              if 0x80 ≤ b4 ∧ b4 ≤ 0xBF then
                (Char.ofNat ((b - 0xF0) * 262144 + (b2 - 0x80) * 4096 +
                  (b3 - 0x80) * 64 + (b4 - 0x80)), 3)
              else (replChar, 2)
            | [] => (replChar, 2)
          else (replChar, 1)
        | [] => (replChar, 1)
      else (replChar, 0)
    | [] => (replChar, 0)
  else (replChar, 0)

/-- Fuel-driven decoding loop; the fuel only needs to dominate the number of
bytes for the result to be the full decode. -/
def utf8LossyFuel : Nat → List Nat → List Char
  | 0, _ => []
  | _, [] => []
  | fuel + 1, b :: rest =>
    let s := utf8Step b rest
    s.1 :: utf8LossyFuel fuel (rest.drop s.2)

/-- Model of `String::from_utf8_lossy`. -/
def utf8Lossy (l : List Nat) : List Char :=
  utf8LossyFuel l.length l

/-! ### Filesystem model

A path is a list of components; the filesystem is an association list from
paths to byte contents plus the set of existing directories. -/

abbrev FsPath := List (List Char)

structure FileSystem where
  files : List (FsPath × List Nat)
  dirs : List FsPath
deriving DecidableEq

/-- Look up a file's bytes; `none` models `ErrorKind::NotFound`. -/
def fsRead (fs : FileSystem) (p : FsPath) : Option (List Nat) :=
  (fs.files.find? (fun e => e.1 = p)).map (·.2)

/-- Replace (or create) the file at `p` with `content`. -/
def fsSetFile (fs : FileSystem) (p : FsPath) (content : List Nat) : FileSystem :=
  { fs with files := fs.files.filter (fun e => ¬ e.1 = p) ++ [(p, content)] }

/-- Model of `fs::create_dir_all`: create the directory and all its
ancestors. -/
def createDirAll (fs : FileSystem) (dir : FsPath) : FileSystem :=
  { fs with
    dirs := fs.dirs ++
      (((List.range dir.length).map (fun i => dir.take (i + 1))).filter
        (fun d => ¬ d ∈ fs.dirs)) }

/-! ### `read_memories_file` -/

/-- Model of `read_memories_file`, applied to the bytes found at the path
(`none` = file absent).  An absent or empty file reads as no notes; an
oversized file is truncated to its trailing `MEMORIES_MAX_BYTES` bytes before
the lossy decode and parse. -/
def read_memories_file (data? : Option (List Nat)) : List (List Char) :=
  match data? with
  | none => []
  | some data =>
    if data.isEmpty then []
    else
      let data :=
        if data.length > MEMORIES_MAX_BYTES then
          data.drop (data.length - MEMORIES_MAX_BYTES)
        else data
      parse_memories (utf8Lossy data)

/-! ### `read_memories_for_instructions` -/

/-- The merge loop of `read_memories_for_instructions`: fold the notes of one
path into the `entries`/`seen` accumulators, trimming, skipping blanks, and
deduplicating by lowercase key. -/
def mergeNotesLoop : List (List Char) × List (List Char) → List (List Char) →
    List (List Char) × List (List Char)
  | acc, [] => acc
  | (entries, seen), v :: vs =>
    let trimmed := rustTrim v
    if trimmed.isEmpty then mergeNotesLoop (entries, seen) vs
    else
      let key := toAsciiLower trimmed
      if key ∈ seen then mergeNotesLoop (entries, seen) vs
      else mergeNotesLoop (entries ++ [trimmed], seen ++ [key]) vs

/-- Model of `read_memories_for_instructions`, over the resolved store paths
(path resolution itself depends on an external git-root lookup and is taken
as input). -/
def read_memories_for_instructions (fs : FileSystem) (paths : List FsPath) :
    Option (List Char) :=
  build_memories_section
    (paths.foldl
      (fun acc p => mergeNotesLoop acc (read_memories_file (fsRead fs p)))
      ([], [])).1

/-! ### `append_memories` -/

/-- The candidate-filtering loop of `append_memories`: keep each trimmed,
non-blank entry whose lowercase key is not yet in `seen`. -/
def additionsLoop : List (List Char) → List (List Char) → List (List Char) →
    List (List Char)
  | [], additions, _ => additions
  | e :: es, additions, seen =>
    let trimmed := rustTrim e
    if trimmed.isEmpty then additionsLoop es additions seen
    else
      let key := toAsciiLower trimmed
      if key ∈ seen then additionsLoop es additions seen
      else additionsLoop es (additions ++ [trimmed]) (key :: seen)

/-- The new-candidate list appended for one call: `existing` is the parsed
store content, `entries` the candidate batch. -/
def computeAdditions (existing entries : List (List Char)) : List (List Char) :=
  additionsLoop entries [] (existing.map toAsciiLower)

/-- The block of bullet lines written for `additions`. -/
def bulletBlock (additions : List (List Char)) : List Char :=
  (additions.map (fun a => '-' :: ' ' :: (a ++ ['\n']))).flatten

/-- Model of `append_memories`: returns the updated filesystem and the count
of additions written (the `Ok` value; the modelled filesystem has no I/O
failures). -/
def append_memories (fs : FileSystem) (path : FsPath)
    (entries : List (List Char)) : FileSystem × Nat :=
  if entries.isEmpty then (fs, 0)
  else
    let existing := read_memories_file (fsRead fs path)
    let additions := computeAdditions existing entries
    if additions.isEmpty then (fs, 0)
    else
      let fs := createDirAll fs path.dropLast
      let old := (fsRead fs path).getD []
      let lead :=
        if old.isEmpty then utf8Encode (MEMORIES_FILE_HEADER ++ ['\n'])
        else utf8Encode ['\n']
      (fsSetFile fs path (old ++ lead ++ utf8Encode (bulletBlock additions)),
        additions.length)

/-! ### `maybe_record_memories`

The session source, the user inputs, and the response-event stream are the
inputs of the orchestrator; the streaming transport itself is external, so the
stream is modelled as `none` (failed to start) or the list of events it
delivers before closing. -/

inductive SessionSource where
  | Exec
  | SubAgent
  | Interactive
deriving DecidableEq

inductive UserInput where
  | Text (text : List Char)
  | Image
deriving DecidableEq

inductive RespItem where
  | Message (text? : Option (List Char))
  | OtherItem
deriving DecidableEq

inductive RespEvent where
  | OutputItemDone (item : RespItem)
  | OutputTextDelta (delta : List Char)
  | RateLimits
  | Completed
  | OtherEvent
deriving DecidableEq

/-- One element of the event stream: `error` models an `Err` event. -/
inductive StreamEvent where
  | ok (event : RespEvent)
  | error
deriving DecidableEq

/-- Model of `should_record_memories`. -/
def should_record_memories (source : SessionSource) : Prop :=
  ¬ (source = SessionSource.Exec ∨ source = SessionSource.SubAgent)

instance (source : SessionSource) : Decidable (should_record_memories source) := by
  unfold should_record_memories; infer_instance

/-- Model of `collect_user_input_texts`. -/
def collect_user_input_texts (inputs : List UserInput) : List (List Char) :=
  inputs.foldl
    (fun texts input =>
      match input with
      | UserInput.Text t => if (rustTrim t).isEmpty then texts else texts ++ [t]
      | UserInput.Image => texts)
    []

/-- Outcome of consuming the event stream. -/
inductive StreamOutcome where
  | aborted
  | completed (outputItems : List (List Char)) (streamedText : List Char)
deriving DecidableEq

/-- The event loop of `maybe_record_memories`: accumulate finished message
texts and streamed deltas until a `Completed` event; an error event or the
stream closing first aborts. -/
def runStream : List StreamEvent → List (List Char) → List Char → StreamOutcome
  | [], _, _ => StreamOutcome.aborted
  | e :: rest, items, streamed =>
    match e with
    | StreamEvent.ok (RespEvent.OutputItemDone (RespItem.Message (some t))) =>
        runStream rest (items ++ [t]) streamed
    | StreamEvent.ok (RespEvent.OutputItemDone _) => runStream rest items streamed
    | StreamEvent.ok (RespEvent.OutputTextDelta d) =>
        runStream rest items (streamed ++ d)
    | StreamEvent.ok RespEvent.RateLimits => runStream rest items streamed
    | StreamEvent.ok RespEvent.Completed => StreamOutcome.completed items streamed
    | StreamEvent.ok RespEvent.OtherEvent => runStream rest items streamed
    | StreamEvent.error => StreamOutcome.aborted

/-- Model of `maybe_record_memories`: the resulting filesystem.  `stream?` is
`none` when the stream fails to start; `path` is the resolved write target
(`memory_write_path` depends on the external git-root lookup). -/
def maybe_record_memories (fs : FileSystem) (source : SessionSource)
    (inputs : List UserInput) (stream? : Option (List StreamEvent))
    (path : FsPath) : FileSystem :=
  if ¬ should_record_memories source then fs
  else if (collect_user_input_texts inputs).isEmpty then fs
  else
    match stream? with
    | none => fs
    | some events =>
      match runStream events [] [] with
      | StreamOutcome.aborted => fs
      | StreamOutcome.completed outputItems streamedText =>
        let rawOutput :=
          if outputItems.isEmpty then streamedText
          else List.intercalate ['\n'] outputItems
        let candidates := parse_memory_candidates rawOutput
        if candidates.isEmpty then fs
        else
          let candidates :=
            if candidates.length > MAX_NEW_MEMORIES_PER_TURN then
              candidates.take MAX_NEW_MEMORIES_PER_TURN
            else candidates
          (append_memories fs path candidates).1

/-! ### Specification-side definitions

Independent renderings of the behaviours the specification describes, used to
state the claims without referring to the implementation's accumulator
loops. -/

/-- The trimmed bullet bodies of a line list, in order (the lines that, after
trimming, are non-blank, do not start with `#`, and carry a `- `/`* `
marker). -/
def bulletsOfLines (L : List (List Char)) : List (List Char) :=
  L.filterMap (fun line =>
    let t := rustTrim line
    if t.isEmpty ∨ t.head? = some '#' then none
    else
      match stripBullet t with
      | some entry => some (rustTrim entry)
      | none => none)

/-- The trimmed non-bullet, non-blank, non-heading lines of a line list, in
order. -/
def plainsOfLines (L : List (List Char)) : List (List Char) :=
  L.filterMap (fun line =>
    let t := rustTrim line
    if t.isEmpty ∨ t.head? = some '#' then none
    else
      match stripBullet t with
      | some _ => none
      | none => some t)

/-- The claim's reading of the StoreParser fallback: every non-blank line not
starting with `#`, verbatim. -/
def verbatimPlainsOfLines (L : List (List Char)) : List (List Char) :=
  L.filter (fun line => decide (¬ rustTrim line = [] ∧ ¬ line.head? = some '#'))

/-- The behaviour claim C1 ascribes to StoreParser: bullet bodies if any
bullet line exists, otherwise the non-blank non-heading lines verbatim. -/
def storeParserClaimed (text : List Char) : List (List Char) :=
  if (bulletsOfLines (rustLines text)).isEmpty then
    verbatimPlainsOfLines (rustLines text)
  else bulletsOfLines (rustLines text)

/-- The raw candidate entries of one line list: trimmed lines that are
non-blank and not the sentinel, with a leading bullet marker stripped (and the
remainder re-trimmed). -/
def candidateRawOfLines (L : List (List Char)) : List (List Char) :=
  L.filterMap (fun line =>
    let l := rustTrim line
    if l.isEmpty ∨ eqIgnoreAsciiCase l NO_MEMORIES_RESPONSE then none
    else
      match stripBullet l with
      | some entry => some (rustTrim entry)
      | none => some l)

/-- The raw (pre-dedup) candidate entries of a response text. -/
def candidateRawEntries (text : List Char) : List (List Char) :=
  let trimmed := rustTrim text
  if trimmed.isEmpty ∨ eqIgnoreAsciiCase trimmed NO_MEMORIES_RESPONSE then []
  else candidateRawOfLines (rustLines trimmed)

/-- Keep the first occurrence of each ASCII-lowercase key, given the keys in
`seen` are already taken. -/
def firstSeenDedup (seen : List (List Char)) : List (List Char) → List (List Char)
  | [] => []
  | e :: es =>
    if toAsciiLower e ∈ seen then firstSeenDedup seen es
    else e :: firstSeenDedup (toAsciiLower e :: seen) es

/-- The novel candidates of a batch against the keys in `seen`: trimmed,
non-blank, with a lowercase key neither in `seen` nor claimed by an earlier
candidate of the batch. -/
def novelCandidates (seen : List (List Char)) : List (List Char) → List (List Char)
  | [] => []
  | e :: es =>
    let t := rustTrim e
    if t.isEmpty then novelCandidates seen es
    else if toAsciiLower t ∈ seen then novelCandidates seen es
    else t :: novelCandidates (toAsciiLower t :: seen) es

/-- Claim C9's abort condition on the delivered events: the stream yields an
error, or closes, before ever yielding a completion event. -/
def abortsStream : List StreamEvent → Prop
  | [] => True
  | StreamEvent.error :: _ => True
  | StreamEvent.ok RespEvent.Completed :: _ => False
  | _ :: rest => abortsStream rest

instance instDecidableAbortsStream : ∀ events : List StreamEvent,
    Decidable (abortsStream events)
  | [] => Decidable.isTrue trivial
  | StreamEvent.error :: _ => Decidable.isTrue trivial
  | StreamEvent.ok RespEvent.Completed :: _ => Decidable.isFalse (fun h => h)
  | StreamEvent.ok (RespEvent.OutputItemDone _) :: rest =>
    instDecidableAbortsStream rest
  | StreamEvent.ok (RespEvent.OutputTextDelta _) :: rest =>
    instDecidableAbortsStream rest
  | StreamEvent.ok RespEvent.RateLimits :: rest => instDecidableAbortsStream rest
  | StreamEvent.ok RespEvent.OtherEvent :: rest => instDecidableAbortsStream rest

end Memories

namespace Memories

/-! ### Lemmas on trimming -/

theorem mem_trimEnd {s : List Char} {a : Char} (h : a ∈ trimEnd s) : a ∈ s := by
  induction s with
  | nil => simp [trimEnd] at h
  | cons c rest ih =>
    rw [trimEnd] at h
    cases hr : trimEnd rest with
    | nil =>
      rw [hr] at h
      by_cases hw : isRustWhitespace c
      · simp [hw] at h
      · simp only [if_neg hw, List.mem_singleton] at h
        simp [h]
    | cons x xs =>
      rw [hr] at h
      rcases List.mem_cons.mp h with h1 | h2
      · simp [h1]
      · exact List.mem_cons_of_mem _ (ih (by rw [hr]; exact h2))

theorem mem_trimStart {s : List Char} {a : Char} (h : a ∈ trimStart s) : a ∈ s :=
  (List.dropWhile_sublist _).subset h

theorem mem_rustTrim {s : List Char} {a : Char} (h : a ∈ rustTrim s) : a ∈ s :=
  mem_trimStart (mem_trimEnd h)

theorem getLast?_trimEnd_not_ws :
    ∀ {s : List Char} {c : Char}, (trimEnd s).getLast? = some c →
      ¬ isRustWhitespace c := by
  intro s
  induction s with
  | nil => simp [trimEnd]
  | cons a rest ih =>
    intro c h
    rw [trimEnd] at h
    cases hr : trimEnd rest with
    | nil =>
      rw [hr] at h
      by_cases hw : isRustWhitespace a
      · simp [hw] at h
      · simp only [if_neg hw, List.getLast?_singleton, Option.some_inj] at h
        exact h ▸ hw
    | cons x xs =>
      rw [hr] at h
      rw [List.getLast?_cons_cons] at h
      exact ih (by rw [hr]; exact h)

theorem head?_trimEnd {s : List Char} {a : Char} (h : (trimEnd s).head? = some a) :
    s.head? = some a := by
  induction s with
  | nil => simp [trimEnd] at h
  | cons c rest ih =>
    rw [trimEnd] at h
    cases hr : trimEnd rest with
    | nil =>
      rw [hr] at h
      by_cases hw : isRustWhitespace c
      · simp [hw] at h
      · simp only [if_neg hw, List.head?_cons, Option.some_inj] at h
        simp [h]
    | cons x xs =>
      rw [hr] at h
      simp only [List.head?_cons, Option.some_inj] at h
      simp [h]

theorem head?_trimStart_not_ws {s : List Char} {a : Char}
    (h : (trimStart s).head? = some a) : ¬ isRustWhitespace a := by
  have hd := List.head?_dropWhile_not (fun c => decide (isRustWhitespace c)) s
  rw [trimStart] at h
  rw [h] at hd
  simpa using hd

theorem head?_rustTrim_not_ws {s : List Char} {a : Char}
    (h : (rustTrim s).head? = some a) : ¬ isRustWhitespace a :=
  head?_trimStart_not_ws (head?_trimEnd h)

theorem getLast?_rustTrim_not_ws {s : List Char} {a : Char}
    (h : (rustTrim s).getLast? = some a) : ¬ isRustWhitespace a :=
  getLast?_trimEnd_not_ws h

theorem trimEnd_eq_self {s : List Char}
    (h : ∀ c, s.getLast? = some c → ¬ isRustWhitespace c) : trimEnd s = s := by
  induction s with
  | nil => rfl
  | cons c rest ih =>
    cases rest with
    | nil =>
      have := h c (by simp)
      simp [trimEnd, this]
    | cons d ds =>
      have hrest : trimEnd (d :: ds) = d :: ds := by
        apply ih
        intro x hx
        exact h x (by rw [List.getLast?_cons_cons]; exact hx)
      rw [trimEnd, hrest]

theorem trimStart_eq_self {s : List Char}
    (h : ∀ c, s.head? = some c → ¬ isRustWhitespace c) : trimStart s = s := by
  cases s with
  | nil => rfl
  | cons c rest =>
    have := h c (by simp)
    simp [trimStart, List.dropWhile_cons, this]

theorem rustTrim_eq_self {s : List Char}
    (hh : ∀ c, s.head? = some c → ¬ isRustWhitespace c)
    (hl : ∀ c, s.getLast? = some c → ¬ isRustWhitespace c) : rustTrim s = s := by
  rw [rustTrim, trimStart_eq_self hh, trimEnd_eq_self hl]

theorem rustTrim_idem (s : List Char) : rustTrim (rustTrim s) = rustTrim s := by
  cases hs : rustTrim s with
  | nil => rfl
  | cons c rest =>
    rw [← hs]
    apply rustTrim_eq_self
    · intro x hx
      exact head?_rustTrim_not_ws hx
    · intro x hx
      exact getLast?_rustTrim_not_ws hx

theorem rustTrim_eq_nil_of_all_ws {s : List Char}
    (h : ∀ c ∈ s, isRustWhitespace c) : rustTrim s = [] := by
  have : trimStart s = [] := by
    rw [trimStart, List.dropWhile_eq_nil_iff]
    intro x hx
    simpa using h x hx
  rw [rustTrim, this]
  rfl

/-! ### Lemmas on line splitting -/

theorem splitNl_ne_nil (s : List Char) : splitNl s ≠ [] := by
  induction s with
  | nil => simp [splitNl]
  | cons c rest ih =>
    rw [splitNl]
    by_cases hc : c = '\n'
    · simp [hc]
    · rw [if_neg hc]
      cases hr : splitNl rest with
      | nil => simp
      | cons l ls => simp

theorem splitNl_cons_newline (rest : List Char) :
    splitNl ('\n' :: rest) = [] :: splitNl rest := by
  rw [splitNl, if_pos rfl]

theorem splitNl_cons_of_ne {c : Char} (hc : ¬ c = '\n') (rest : List Char) :
    splitNl (c :: rest) =
      match splitNl rest with
      | l :: ls => (c :: l) :: ls
      | [] => [[c]] := by
  rw [splitNl, if_neg hc]

theorem splitNl_append_newline (a b : List Char) :
    splitNl (a ++ '\n' :: b) = splitNl a ++ splitNl b := by
  induction a with
  | nil => simp [splitNl_cons_newline, splitNl]
  | cons c rest ih =>
    by_cases hc : c = '\n'
    · subst hc
      rw [List.cons_append, splitNl_cons_newline, ih, splitNl_cons_newline,
        List.cons_append]
    · rw [List.cons_append, splitNl_cons_of_ne hc, ih, splitNl_cons_of_ne hc]
      cases hr : splitNl rest with
      | nil => exact absurd hr (splitNl_ne_nil rest)
      | cons l ls => simp

theorem splitNl_no_newline {s : List Char} (h : ¬ '\n' ∈ s) : splitNl s = [s] := by
  induction s with
  | nil => rfl
  | cons c rest ih =>
    have hc : ¬ c = '\n' := fun hc => h (hc ▸ List.mem_cons_self c rest)
    have hrest : ¬ '\n' ∈ rest := fun hr => h (List.mem_cons_of_mem _ hr)
    rw [splitNl, if_neg hc, ih hrest]

theorem mem_splitNl_no_newline :
    ∀ {s l : List Char}, l ∈ splitNl s → ¬ '\n' ∈ l := by
  intro s
  induction s with
  | nil =>
    intro l hl
    simp only [splitNl, List.mem_singleton] at hl
    simp [hl]
  | cons c rest ih =>
    intro l hl
    rw [splitNl] at hl
    by_cases hc : c = '\n'
    · rw [if_pos hc] at hl
      rcases List.mem_cons.mp hl with h1 | h2
      · simp [h1]
      · exact ih h2
    · rw [if_neg hc] at hl
      cases hr : splitNl rest with
      | nil => exact absurd hr (splitNl_ne_nil rest)
      | cons x xs =>
        rw [hr] at hl
        rcases List.mem_cons.mp hl with h1 | h2
        · subst h1
          intro hmem
          rcases List.mem_cons.mp hmem with h3 | h4
          · exact hc h3.symm
          · exact ih (hr ▸ List.mem_cons_self x xs) h4
        · exact ih (by rw [hr]; exact List.mem_cons_of_mem _ h2)

theorem dropLastEmptyLine_append {x y : List (List Char)} (hy : y ≠ []) :
    dropLastEmptyLine (x ++ y) = x ++ dropLastEmptyLine y := by
  rw [dropLastEmptyLine, dropLastEmptyLine,
    @List.getLast?_append _ x y]
  cases hl : y.getLast? with
  | none => simp [List.getLast?_eq_none_iff.mp hl] at hy
  | some v =>
    by_cases hv : v = []
    · subst hv
      simp only [Option.or_some, if_pos rfl]
      exact List.dropLast_append_of_ne_nil _ hy
    · have : ¬ (some v = some ([] : List Char)) := by simpa using hv
      simp [this]

theorem rustLines_append_newline (a b : List Char) :
    rustLines (a ++ '\n' :: b) = (splitNl a).map stripCr ++ rustLines b := by
  rw [rustLines, splitNl_append_newline,
    dropLastEmptyLine_append (splitNl_ne_nil b), List.map_append, rustLines]

/-! ### Characterization of the parser loops -/

theorem bulletsOfLines_cons_skip {line : List Char} (L : List (List Char))
    (h : (rustTrim line).isEmpty ∨ (rustTrim line).head? = some '#') :
    bulletsOfLines (line :: L) = bulletsOfLines L := by
  simp only [bulletsOfLines, List.filterMap_cons]
  rw [if_pos h]

theorem bulletsOfLines_cons_bullet {line entry : List Char} (L : List (List Char))
    (h : ¬ ((rustTrim line).isEmpty ∨ (rustTrim line).head? = some '#'))
    (hs : stripBullet (rustTrim line) = some entry) :
    bulletsOfLines (line :: L) = rustTrim entry :: bulletsOfLines L := by
  simp only [bulletsOfLines, List.filterMap_cons]
  rw [if_neg h, hs]

theorem bulletsOfLines_cons_plain {line : List Char} (L : List (List Char))
    (h : ¬ ((rustTrim line).isEmpty ∨ (rustTrim line).head? = some '#'))
    (hs : stripBullet (rustTrim line) = none) :
    bulletsOfLines (line :: L) = bulletsOfLines L := by
  simp only [bulletsOfLines, List.filterMap_cons]
  rw [if_neg h, hs]

theorem plainsOfLines_cons_skip {line : List Char} (L : List (List Char))
    (h : (rustTrim line).isEmpty ∨ (rustTrim line).head? = some '#') :
    plainsOfLines (line :: L) = plainsOfLines L := by
  simp only [plainsOfLines, List.filterMap_cons]
  rw [if_pos h]

theorem plainsOfLines_cons_bullet {line entry : List Char} (L : List (List Char))
    (h : ¬ ((rustTrim line).isEmpty ∨ (rustTrim line).head? = some '#'))
    (hs : stripBullet (rustTrim line) = some entry) :
    plainsOfLines (line :: L) = plainsOfLines L := by
  simp only [plainsOfLines, List.filterMap_cons]
  rw [if_neg h, hs]

theorem plainsOfLines_cons_plain {line : List Char} (L : List (List Char))
    (h : ¬ ((rustTrim line).isEmpty ∨ (rustTrim line).head? = some '#'))
    (hs : stripBullet (rustTrim line) = none) :
    plainsOfLines (line :: L) = rustTrim line :: plainsOfLines L := by
  simp only [plainsOfLines, List.filterMap_cons]
  rw [if_neg h, hs]

theorem parseMemoriesLoop_eq (L : List (List Char)) :
    ∀ bullets plains, parseMemoriesLoop L bullets plains =
      (bullets ++ bulletsOfLines L, plains ++ plainsOfLines L) := by
  induction L with
  | nil => intro b p; simp [parseMemoriesLoop, bulletsOfLines, plainsOfLines]
  | cons line rest ih =>
    intro b p
    rw [parseMemoriesLoop]
    by_cases hc : (rustTrim line).isEmpty ∨ (rustTrim line).head? = some '#'
    · rw [if_pos hc, ih, bulletsOfLines_cons_skip rest hc,
        plainsOfLines_cons_skip rest hc]
    · rw [if_neg hc]
      cases hs : stripBullet (rustTrim line) with
      | some entry =>
        simp only [ih]
        rw [bulletsOfLines_cons_bullet rest hc hs,
          plainsOfLines_cons_bullet rest hc hs]
        simp
      | none =>
        simp only [ih]
        rw [bulletsOfLines_cons_plain rest hc hs,
          plainsOfLines_cons_plain rest hc hs]
        simp

theorem parse_memories_eq (text : List Char) :
    parse_memories text =
      if (bulletsOfLines (rustLines text)).isEmpty then
        plainsOfLines (rustLines text)
      else bulletsOfLines (rustLines text) := by
  rw [parse_memories, parseMemoriesLoop_eq]
  simp

theorem candidateRawOfLines_cons_skip {line : List Char} (L : List (List Char))
    (h : (rustTrim line).isEmpty ∨
      eqIgnoreAsciiCase (rustTrim line) NO_MEMORIES_RESPONSE) :
    candidateRawOfLines (line :: L) = candidateRawOfLines L := by
  simp only [candidateRawOfLines, List.filterMap_cons]
  rw [if_pos h]

theorem candidateRawOfLines_cons_bullet {line entry : List Char}
    (L : List (List Char))
    (h : ¬ ((rustTrim line).isEmpty ∨
      eqIgnoreAsciiCase (rustTrim line) NO_MEMORIES_RESPONSE))
    (hs : stripBullet (rustTrim line) = some entry) :
    candidateRawOfLines (line :: L) = rustTrim entry :: candidateRawOfLines L := by
  simp only [candidateRawOfLines, List.filterMap_cons]
  rw [if_neg h, hs]

theorem candidateRawOfLines_cons_plain {line : List Char} (L : List (List Char))
    (h : ¬ ((rustTrim line).isEmpty ∨
      eqIgnoreAsciiCase (rustTrim line) NO_MEMORIES_RESPONSE))
    (hs : stripBullet (rustTrim line) = none) :
    candidateRawOfLines (line :: L) = rustTrim line :: candidateRawOfLines L := by
  simp only [candidateRawOfLines, List.filterMap_cons]
  rw [if_neg h, hs]

theorem parseCandidatesLoop_eq (L : List (List Char)) :
    ∀ acc, parseCandidatesLoop L acc = acc ++ candidateRawOfLines L := by
  induction L with
  | nil => intro acc; simp [parseCandidatesLoop, candidateRawOfLines]
  | cons line rest ih =>
    intro acc
    rw [parseCandidatesLoop]
    by_cases hc : (rustTrim line).isEmpty ∨
        eqIgnoreAsciiCase (rustTrim line) NO_MEMORIES_RESPONSE
    · rw [if_pos hc, ih, candidateRawOfLines_cons_skip rest hc]
    · rw [if_neg hc]
      cases hs : stripBullet (rustTrim line) with
      | some entry =>
        simp only [ih]
        rw [candidateRawOfLines_cons_bullet rest hc hs]
        simp
      | none =>
        simp only [ih]
        rw [candidateRawOfLines_cons_plain rest hc hs]
        simp

theorem dedupLoop_eq (es : List (List Char)) :
    ∀ acc seen, dedupLoop es acc seen = acc ++ firstSeenDedup seen es := by
  induction es with
  | nil => intro acc seen; simp [dedupLoop, firstSeenDedup]
  | cons e rest ih =>
    intro acc seen
    rw [dedupLoop, firstSeenDedup]
    by_cases hk : toAsciiLower e ∈ seen
    · rw [if_pos hk, if_pos hk, ih]
    · rw [if_neg hk, if_neg hk, ih]
      simp

theorem parse_memory_candidates_eq (text : List Char) :
    parse_memory_candidates text = firstSeenDedup [] (candidateRawEntries text) := by
  rw [parse_memory_candidates, candidateRawEntries]
  by_cases hc : (rustTrim text).isEmpty ∨
      eqIgnoreAsciiCase (rustTrim text) NO_MEMORIES_RESPONSE
  · rw [if_pos hc, if_pos hc]
    rfl
  · rw [if_neg hc, if_neg hc, dedupLoop_eq, parseCandidatesLoop_eq]
    simp

/-! ### Properties of the deduplication -/

theorem firstSeenDedup_sublist (seen es : List (List Char)) :
    List.Sublist (firstSeenDedup seen es) es := by
  induction es generalizing seen with
  | nil => simp [firstSeenDedup]
  | cons e rest ih =>
    rw [firstSeenDedup]
    by_cases hk : toAsciiLower e ∈ seen
    · rw [if_pos hk]
      exact List.Sublist.cons e (ih seen)
    · rw [if_neg hk]
      exact List.Sublist.cons₂ e (ih _)

theorem mem_firstSeenDedup_key_not_seen :
    ∀ {seen es a}, a ∈ firstSeenDedup seen es → ¬ toAsciiLower a ∈ seen := by
  intro seen es
  induction es generalizing seen with
  | nil => intro a h; simp [firstSeenDedup] at h
  | cons e rest ih =>
    intro a h
    rw [firstSeenDedup] at h
    by_cases hk : toAsciiLower e ∈ seen
    · rw [if_pos hk] at h
      exact ih h
    · rw [if_neg hk] at h
      rcases List.mem_cons.mp h with h1 | h2
      · exact h1 ▸ hk
      · intro hmem
        exact ih h2 (List.mem_cons_of_mem _ hmem)

theorem firstSeenDedup_pairwise (seen es : List (List Char)) :
    (firstSeenDedup seen es).Pairwise
      (fun a b => ¬ toAsciiLower a = toAsciiLower b) := by
  induction es generalizing seen with
  | nil => simp [firstSeenDedup]
  | cons e rest ih =>
    rw [firstSeenDedup]
    by_cases hk : toAsciiLower e ∈ seen
    · rw [if_pos hk]
      exact ih seen
    · rw [if_neg hk]
      refine List.Pairwise.cons ?_ (ih _)
      intro b hb heq
      exact mem_firstSeenDedup_key_not_seen hb (heq ▸ List.mem_cons_self _ _)

theorem firstSeenDedup_covers (seen es : List (List Char)) :
    ∀ e ∈ es, toAsciiLower e ∈ seen ∨
      toAsciiLower e ∈ (firstSeenDedup seen es).map toAsciiLower := by
  induction es generalizing seen with
  | nil => simp
  | cons e rest ih =>
    intro x hx
    rw [firstSeenDedup]
    by_cases hk : toAsciiLower e ∈ seen
    · rw [if_pos hk]
      rcases List.mem_cons.mp hx with h1 | h2
      · exact Or.inl (h1 ▸ hk)
      · exact ih seen x h2
    · rw [if_neg hk]
      rcases List.mem_cons.mp hx with h1 | h2
      · subst h1
        exact Or.inr (by simp)
      · rcases ih (toAsciiLower e :: seen) x h2 with h3 | h3
        · rcases List.mem_cons.mp h3 with h4 | h5
          · exact Or.inr (by simp [h4])
          · exact Or.inl h5
        · exact Or.inr (by simp [h3])

/-! ### Properties of the novel-candidate computation -/

theorem novelCandidates_congr :
    ∀ (es : List (List Char)) {s1 s2 : List (List Char)},
      (∀ k, k ∈ s1 ↔ k ∈ s2) →
      novelCandidates s1 es = novelCandidates s2 es := by
  intro es
  induction es with
  | nil => intro s1 s2 _; rfl
  | cons e rest ih =>
    intro s1 s2 hs
    rw [novelCandidates, novelCandidates]
    by_cases he : (rustTrim e).isEmpty
    · rw [if_pos he, if_pos he]
      exact ih hs
    · rw [if_neg he, if_neg he]
      by_cases hk : toAsciiLower (rustTrim e) ∈ s1
      · rw [if_pos hk, if_pos ((hs _).mp hk)]
        exact ih hs
      · rw [if_neg hk, if_neg (fun hk2 => hk ((hs _).mpr hk2))]
        refine congrArg _ (ih ?_)
        intro k
        simp only [List.mem_cons]
        exact or_congr Iff.rfl (hs k)

theorem mem_novelCandidates :
    ∀ {seen es : List (List Char)} {a : List Char}, a ∈ novelCandidates seen es →
      (∃ e ∈ es, a = rustTrim e) ∧ ¬ a = [] ∧ ¬ toAsciiLower a ∈ seen := by
  intro seen es
  induction es generalizing seen with
  | nil => intro a h; simp [novelCandidates] at h
  | cons e rest ih =>
    intro a h
    rw [novelCandidates] at h
    by_cases he : (rustTrim e).isEmpty
    · rw [if_pos he] at h
      rcases ih h with ⟨⟨x, hx, hax⟩, h2, h3⟩
      exact ⟨⟨x, List.mem_cons_of_mem _ hx, hax⟩, h2, h3⟩
    · rw [if_neg he] at h
      by_cases hk : toAsciiLower (rustTrim e) ∈ seen
      · rw [if_pos hk] at h
        rcases ih h with ⟨⟨x, hx, hax⟩, h2, h3⟩
        exact ⟨⟨x, List.mem_cons_of_mem _ hx, hax⟩, h2, h3⟩
      · rw [if_neg hk] at h
        rcases List.mem_cons.mp h with h1 | h2
        · subst h1
          refine ⟨⟨e, List.mem_cons_self _ _, rfl⟩, ?_, hk⟩
          simpa using he
        · rcases ih h2 with ⟨⟨x, hx, hax⟩, hb2, hb3⟩
          refine ⟨⟨x, List.mem_cons_of_mem _ hx, hax⟩, hb2, ?_⟩
          intro hmem
          exact hb3 (List.mem_cons_of_mem _ hmem)

theorem novelCandidates_covers (seen es : List (List Char)) :
    ∀ e ∈ es, rustTrim e = [] ∨ toAsciiLower (rustTrim e) ∈ seen ∨
      toAsciiLower (rustTrim e) ∈ (novelCandidates seen es).map toAsciiLower := by
  induction es generalizing seen with
  | nil => simp
  | cons e rest ih =>
    intro x hx
    rw [novelCandidates]
    by_cases he : (rustTrim e).isEmpty
    · rw [if_pos he]
      rcases List.mem_cons.mp hx with h1 | h2
      · subst h1
        exact Or.inl (by simpa using he)
      · exact ih seen x h2
    · rw [if_neg he]
      by_cases hk : toAsciiLower (rustTrim e) ∈ seen
      · rw [if_pos hk]
        rcases List.mem_cons.mp hx with h1 | h2
        · exact Or.inr (Or.inl (h1 ▸ hk))
        · exact ih seen x h2
      · rw [if_neg hk]
        rcases List.mem_cons.mp hx with h1 | h2
        · subst h1
          exact Or.inr (Or.inr (by simp))
        · rcases ih (toAsciiLower (rustTrim e) :: seen) x h2 with h3 | h3 | h3
          · exact Or.inl h3
          · rcases List.mem_cons.mp h3 with h4 | h5
            · exact Or.inr (Or.inr (by simp [h4]))
            · exact Or.inr (Or.inl h5)
          · exact Or.inr (Or.inr (by simp [h3]))

theorem novelCandidates_eq_nil {seen es : List (List Char)}
    (h : ∀ e ∈ es, rustTrim e = [] ∨ toAsciiLower (rustTrim e) ∈ seen) :
    novelCandidates seen es = [] := by
  induction es with
  | nil => rfl
  | cons e rest ih =>
    rw [novelCandidates]
    rcases h e (List.mem_cons_self _ _) with h1 | h2
    · rw [if_pos (by simp [h1])]
      exact ih (fun x hx => h x (List.mem_cons_of_mem _ hx))
    · by_cases he : (rustTrim e).isEmpty
      · rw [if_pos he]
        exact ih (fun x hx => h x (List.mem_cons_of_mem _ hx))
      · rw [if_neg he, if_pos h2]
        exact ih (fun x hx => h x (List.mem_cons_of_mem _ hx))

theorem additionsLoop_eq (es : List (List Char)) :
    ∀ acc seen, additionsLoop es acc seen = acc ++ novelCandidates seen es := by
  induction es with
  | nil => intro acc seen; simp [additionsLoop, novelCandidates]
  | cons e rest ih =>
    intro acc seen
    rw [additionsLoop, novelCandidates]
    by_cases he : (rustTrim e).isEmpty
    · rw [if_pos he, if_pos he, ih]
    · rw [if_neg he, if_neg he]
      by_cases hk : toAsciiLower (rustTrim e) ∈ seen
      · rw [if_pos hk, if_pos hk, ih]
      · rw [if_neg hk, if_neg hk, ih]
        simp

theorem computeAdditions_eq (existing entries : List (List Char)) :
    computeAdditions existing entries =
      novelCandidates (existing.map toAsciiLower) entries := by
  rw [computeAdditions, additionsLoop_eq]
  simp

/-! ### Properties of the multi-path merge -/

theorem mergeNotesLoop_eq (values : List (List Char)) :
    ∀ entries seen, mergeNotesLoop (entries, seen) values =
      (entries ++ novelCandidates seen values,
        seen ++ (novelCandidates seen values).map toAsciiLower) := by
  induction values with
  | nil => intro entries seen; simp [mergeNotesLoop, novelCandidates]
  | cons v rest ih =>
    intro entries seen
    rw [mergeNotesLoop, novelCandidates]
    by_cases he : (rustTrim v).isEmpty
    · rw [if_pos he, if_pos he, ih]
    · rw [if_neg he, if_neg he]
      by_cases hk : toAsciiLower (rustTrim v) ∈ seen
      · rw [if_pos hk, if_pos hk, ih]
      · rw [if_neg hk, if_neg hk, ih]
        rw [@novelCandidates_congr rest (seen ++ [toAsciiLower (rustTrim v)])
          (toAsciiLower (rustTrim v) :: seen) (by intro k; simp; tauto)]
        simp

theorem mergeNotesLoop_append (xs ys : List (List Char)) :
    ∀ acc, mergeNotesLoop acc (xs ++ ys) = mergeNotesLoop (mergeNotesLoop acc xs) ys := by
  induction xs with
  | nil => intro acc; rfl
  | cons x rest ih =>
    intro acc
    obtain ⟨entries, seen⟩ := acc
    rw [List.cons_append, mergeNotesLoop, mergeNotesLoop]
    by_cases he : (rustTrim x).isEmpty
    · rw [if_pos he, if_pos he, ih]
    · rw [if_neg he, if_neg he]
      by_cases hk : toAsciiLower (rustTrim x) ∈ seen
      · rw [if_pos hk, if_pos hk, ih]
      · rw [if_neg hk, if_neg hk, ih]

theorem foldl_mergeNotesLoop (ls : List (List (List Char))) :
    ∀ acc, ls.foldl mergeNotesLoop acc = mergeNotesLoop acc ls.flatten := by
  induction ls with
  | nil => intro acc; rfl
  | cons x rest ih =>
    intro acc
    rw [List.foldl_cons, ih, List.flatten_cons, mergeNotesLoop_append]

/-! ### UTF-8 round trip -/

theorem char_toNat_valid (c : Char) :
    c.toNat < 0xD800 ∨ (0xDFFF < c.toNat ∧ c.toNat < 0x110000) := by
  rcases c.valid with h | ⟨ha, hb⟩
  · exact Or.inl (UInt32.toNat_lt_of_lt (by decide) h)
  · exact Or.inr ⟨UInt32.lt_toNat_of_lt (by decide) ha,
      UInt32.toNat_lt_of_lt (by decide) hb⟩

theorem utf8Encode_cons (c : Char) (s : List Char) :
    utf8Encode (c :: s) = utf8EncodeChar c ++ utf8Encode s := by
  simp [utf8Encode]

theorem utf8Encode_append (a b : List Char) :
    utf8Encode (a ++ b) = utf8Encode a ++ utf8Encode b := by
  simp [utf8Encode]

theorem utf8Encode_newline_cons (s : List Char) :
    utf8Encode ('\n' :: s) = utf8Encode ['\n'] ++ utf8Encode s := by
  simp [utf8Encode]

theorem utf8EncodeChar_ne_nil (c : Char) : utf8EncodeChar c ≠ [] := by
  rw [utf8EncodeChar, utf8EncodeNat]
  split_ifs <;> simp

theorem utf8Encode_eq_nil_iff (s : List Char) : utf8Encode s = [] ↔ s = [] := by
  cases s with
  | nil => simp [utf8Encode]
  | cons c rest =>
    simp only [utf8Encode_cons, List.append_eq_nil]
    simp [utf8EncodeChar_ne_nil c]

theorem utf8LossyFuel_fuel_irrel :
    ∀ (f1 : Nat) {l : List Nat} (f2 : Nat), l.length ≤ f1 → l.length ≤ f2 →
      utf8LossyFuel f1 l = utf8LossyFuel f2 l := by
  intro f1
  induction f1 with
  | zero =>
    intro l f2 h1 _
    have hl : l = [] := by
      cases l with
      | nil => rfl
      | cons b rest => simp at h1
    subst hl
    cases f2 <;> rfl
  | succ f ih =>
    intro l f2 h1 h2
    cases l with
    | nil => cases f2 <;> rfl
    | cons b rest =>
      cases f2 with
      | zero => simp at h2
      | succ g =>
        rw [utf8LossyFuel, utf8LossyFuel]
        simp only [List.length_cons] at h1 h2
        have hd : (rest.drop (utf8Step b rest).2).length ≤ rest.length := by
          rw [List.length_drop]; omega
        exact congrArg _ (ih g (by omega) (by omega))

theorem utf8Step_one {b : Nat} (l : List Nat) (h : b < 0x80) :
    utf8Step b l = (Char.ofNat b, 0) := by
  rw [utf8Step.eq_def, if_pos h]

theorem utf8Step_two {b1 b2 : Nat} (l : List Nat)
    (h1 : 0xC2 ≤ b1) (h2 : b1 ≤ 0xDF) (h3 : 0x80 ≤ b2) (h4 : b2 ≤ 0xBF) :
    utf8Step b1 (b2 :: l) = (Char.ofNat ((b1 - 0xC0) * 64 + (b2 - 0x80)), 1) := by
  rw [utf8Step.eq_def, if_neg (by omega), if_pos ⟨h1, h2⟩]
  have hc : 0x80 ≤ b2 ∧ b2 ≤ 0xBF := ⟨h3, h4⟩
  simp [hc]

theorem utf8Step_three {b1 b2 b3 : Nat} (l : List Nat)
    (h1 : 0xE0 ≤ b1) (h2 : b1 ≤ 0xEF)
    (hlo : (if b1 = 0xE0 then 0xA0 else 0x80) ≤ b2)
    (hhi : b2 ≤ (if b1 = 0xED then 0x9F else 0xBF))
    (h3 : 0x80 ≤ b3) (h4 : b3 ≤ 0xBF) :
    utf8Step b1 (b2 :: b3 :: l) =
      (Char.ofNat ((b1 - 0xE0) * 4096 + (b2 - 0x80) * 64 + (b3 - 0x80)), 2) := by
  rw [utf8Step.eq_def, if_neg (by omega),
    if_neg (by intro hcon; omega), if_pos ⟨h1, h2⟩]
  have hc1 : (if b1 = 0xE0 then 0xA0 else 0x80) ≤ b2 ∧
      b2 ≤ (if b1 = 0xED then 0x9F else 0xBF) := ⟨hlo, hhi⟩
  have hc2 : 0x80 ≤ b3 ∧ b3 ≤ 0xBF := ⟨h3, h4⟩
  simp [hc1, hc2]

theorem utf8Step_four {b1 b2 b3 b4 : Nat} (l : List Nat)
    (h1 : 0xF0 ≤ b1) (h2 : b1 ≤ 0xF4)
    (hlo : (if b1 = 0xF0 then 0x90 else 0x80) ≤ b2)
    (hhi : b2 ≤ (if b1 = 0xF4 then 0x8F else 0xBF))
    (h3 : 0x80 ≤ b3) (h4 : b3 ≤ 0xBF) (h5 : 0x80 ≤ b4) (h6 : b4 ≤ 0xBF) :
    utf8Step b1 (b2 :: b3 :: b4 :: l) =
      (Char.ofNat ((b1 - 0xF0) * 262144 + (b2 - 0x80) * 4096 +
        (b3 - 0x80) * 64 + (b4 - 0x80)), 3) := by
  rw [utf8Step.eq_def, if_neg (by omega), if_neg (by intro hcon; omega),
    if_neg (by intro hcon; omega), if_pos ⟨h1, h2⟩]
  have hc1 : (if b1 = 0xF0 then 0x90 else 0x80) ≤ b2 ∧
      b2 ≤ (if b1 = 0xF4 then 0x8F else 0xBF) := ⟨hlo, hhi⟩
  have hc2 : 0x80 ≤ b3 ∧ b3 ≤ 0xBF := ⟨h3, h4⟩
  have hc3 : 0x80 ≤ b4 ∧ b4 ≤ 0xBF := ⟨h5, h6⟩
  simp [hc1, hc2, hc3]

theorem utf8Lossy_encodeChar_append (c : Char) (l : List Nat) :
    utf8Lossy (utf8EncodeChar c ++ l) = c :: utf8Lossy l := by
  have hv := char_toNat_valid c
  rw [utf8EncodeChar, utf8EncodeNat]
  by_cases ha : c.toNat < 0x80
  · rw [if_pos ha, List.singleton_append, utf8Lossy, utf8Lossy]
    simp only [List.length_cons]
    rw [utf8LossyFuel, utf8Step_one l ha]
    simp

  · by_cases hb : c.toNat < 0x800
    · rw [if_neg ha, if_pos hb, List.cons_append, List.cons_append,
        List.nil_append, utf8Lossy, utf8Lossy]
      simp only [List.length_cons]
      rw [utf8LossyFuel,
        utf8Step_two l (by omega) (by omega) (by omega) (by omega)]
      have harith : (0xC0 + c.toNat / 64 - 0xC0) * 64 +
          (0x80 + c.toNat % 64 - 0x80) = c.toNat := by omega
      rw [harith]
      simp only [List.drop_succ_cons, List.drop_zero, Char.ofNat_toNat]
      rw [utf8LossyFuel_fuel_irrel (l.length + 1) l.length (by omega) (by omega)]
    · by_cases hc : c.toNat < 0x10000
      · rw [if_neg ha, if_neg hb, if_pos hc, List.cons_append, List.cons_append,
          List.cons_append, List.nil_append, utf8Lossy, utf8Lossy]
        simp only [List.length_cons]
        rw [utf8LossyFuel,
          utf8Step_three l (by omega) (by omega) (by split_ifs <;> omega)
            (by split_ifs <;> omega) (by omega) (by omega)]
        have harith : (0xE0 + c.toNat / 4096 - 0xE0) * 4096 +
            (0x80 + c.toNat / 64 % 64 - 0x80) * 64 +
            (0x80 + c.toNat % 64 - 0x80) = c.toNat := by omega
        rw [harith]
        simp only [List.drop_succ_cons, List.drop_zero, Char.ofNat_toNat]
        rw [utf8LossyFuel_fuel_irrel (l.length + 2) l.length (by omega) (by omega)]
      · rw [if_neg ha, if_neg hb, if_neg hc, List.cons_append, List.cons_append,
          List.cons_append, List.cons_append, List.nil_append, utf8Lossy,
          utf8Lossy]
        simp only [List.length_cons]
        rw [utf8LossyFuel,
          utf8Step_four l (by omega) (by omega) (by split_ifs <;> omega)
            (by split_ifs <;> omega) (by omega) (by omega) (by omega) (by omega)]
        have harith : (0xF0 + c.toNat / 262144 - 0xF0) * 262144 +
            (0x80 + c.toNat / 4096 % 64 - 0x80) * 4096 +
            (0x80 + c.toNat / 64 % 64 - 0x80) * 64 +
            (0x80 + c.toNat % 64 - 0x80) = c.toNat := by omega
        rw [harith]
        simp only [List.drop_succ_cons, List.drop_zero, Char.ofNat_toNat]
        rw [utf8LossyFuel_fuel_irrel (l.length + 3) l.length (by omega) (by omega)]

theorem utf8Lossy_encode (s : List Char) : utf8Lossy (utf8Encode s) = s := by
  induction s with
  | nil => rfl
  | cons c rest ih => rw [utf8Encode_cons, utf8Lossy_encodeChar_append, ih]

/-! ### Reading and writing the store -/

theorem read_memories_file_encode {t : List Char}
    (h : (utf8Encode t).length ≤ MEMORIES_MAX_BYTES) :
    read_memories_file (some (utf8Encode t)) = parse_memories t := by
  rw [read_memories_file]
  by_cases he : utf8Encode t = []
  · rw [if_pos (by simpa using he)]
    have ht : t = [] := (utf8Encode_eq_nil_iff t).mp he
    subst ht
    decide
  · rw [if_neg (by simpa using he), if_neg (by omega)]
    simp only [utf8Lossy_encode]

theorem fsRead_fsSetFile_self (fs : FileSystem) (p : FsPath) (c : List Nat) :
    fsRead (fsSetFile fs p c) p = some c := by
  rw [fsRead, fsSetFile]
  have hnone : (fs.files.filter (fun e => ¬ e.1 = p)).find? (fun e => e.1 = p) =
      none := by
    rw [List.find?_eq_none]
    intro x hx
    have := (List.mem_filter.mp hx).2
    simpa using this
  simp [List.find?_append, hnone]

theorem fsRead_createDirAll (fs : FileSystem) (d : FsPath) (p : FsPath) :
    fsRead (createDirAll fs d) p = fsRead fs p := rfl

theorem mem_dirs_createDirAll (fs : FileSystem) {dir : FsPath} (h : dir ≠ []) :
    dir ∈ (createDirAll fs dir).dirs := by
  rw [createDirAll]
  by_cases hin : dir ∈ fs.dirs
  · exact List.mem_append.mpr (Or.inl hin)
  · refine List.mem_append.mpr (Or.inr ?_)
    rw [List.mem_filter]
    refine ⟨?_, by simpa using hin⟩
    rw [List.mem_map]
    refine ⟨dir.length - 1, ?_, ?_⟩
    · rw [List.mem_range]
      have := List.length_pos.mpr h
      omega
    · have hlen : dir.length - 1 + 1 = dir.length := by
        have := List.length_pos.mpr h
        omega
      rw [hlen, List.take_length]

theorem append_memories_no_additions {fs : FileSystem} {path : FsPath}
    {entries : List (List Char)}
    (h : computeAdditions (read_memories_file (fsRead fs path)) entries = []) :
    append_memories fs path entries = (fs, 0) := by
  rw [append_memories]
  by_cases hne : entries.isEmpty
  · rw [if_pos hne]
  · rw [if_neg hne, if_pos (by simpa using h)]

theorem append_memories_eq {fs : FileSystem} {path : FsPath}
    {entries : List (List Char)} (hne : entries ≠ [])
    (hadd : computeAdditions (read_memories_file (fsRead fs path)) entries ≠ []) :
    append_memories fs path entries =
      (fsSetFile (createDirAll fs path.dropLast) path
        ((fsRead fs path).getD [] ++
          (if ((fsRead fs path).getD []).isEmpty then
            utf8Encode (MEMORIES_FILE_HEADER ++ ['\n'])
          else utf8Encode ['\n']) ++
          utf8Encode (bulletBlock
            (computeAdditions (read_memories_file (fsRead fs path)) entries))),
        (computeAdditions (read_memories_file (fsRead fs path)) entries).length) := by
  rw [append_memories, if_neg (by simpa using hne), if_neg (by simpa using hadd)]
  rfl

/-! ### Structure of the appended bullet block -/

theorem stripCr_eq_self_of_trimmed {a : List Char} (hne : a ≠ [])
    (ht : rustTrim a = a) : stripCr a = a := by
  rw [stripCr]
  cases hl : a.getLast? with
  | none => simp [List.getLast?_eq_none_iff.mp hl] at hne
  | some x =>
    have hx : ¬ isRustWhitespace x := getLast?_rustTrim_not_ws (ht.symm ▸ hl)
    have : ¬ x = '\r' := fun hcr => hx (by rw [hcr]; decide)
    simp [this]

theorem getLast?_dash_space {a : List Char} (hne : a ≠ []) :
    ('-' :: ' ' :: a).getLast? = a.getLast? := by
  cases a with
  | nil => exact absurd rfl hne
  | cons c rest => rw [List.getLast?_cons_cons, List.getLast?_cons_cons]

theorem stripCr_dash_space {a : List Char} (hne : a ≠ [])
    (ht : rustTrim a = a) : stripCr ('-' :: ' ' :: a) = '-' :: ' ' :: a := by
  rw [stripCr, getLast?_dash_space hne]
  cases hl : a.getLast? with
  | none => simp [List.getLast?_eq_none_iff.mp hl] at hne
  | some x =>
    have hx : ¬ isRustWhitespace x := getLast?_rustTrim_not_ws (ht.symm ▸ hl)
    have : ¬ x = '\r' := fun hcr => hx (by rw [hcr]; decide)
    simp [this]

theorem rustTrim_dash_space {a : List Char} (hne : a ≠ [])
    (ht : rustTrim a = a) : rustTrim ('-' :: ' ' :: a) = '-' :: ' ' :: a := by
  apply rustTrim_eq_self
  · intro c hc
    simp only [List.head?_cons, Option.some_inj] at hc
    subst hc
    decide
  · intro c hc
    rw [getLast?_dash_space hne] at hc
    exact getLast?_rustTrim_not_ws (ht.symm ▸ hc)

theorem bulletBlock_cons (a : List Char) (A : List (List Char)) :
    bulletBlock (a :: A) = ('-' :: ' ' :: a) ++ '\n' :: bulletBlock A := by
  simp [bulletBlock]

theorem no_newline_dash_space {a : List Char} (hnl : ¬ '\n' ∈ a) :
    ¬ '\n' ∈ ('-' :: ' ' :: a) := by
  intro hmem
  rcases List.mem_cons.mp hmem with h1 | h2
  · exact absurd h1.symm (by decide)
  · rcases List.mem_cons.mp h2 with h3 | h4
    · exact absurd h3.symm (by decide)
    · exact hnl h4

theorem rustLines_bulletBlock {A : List (List Char)}
    (hA : ∀ a ∈ A, a ≠ [] ∧ rustTrim a = a ∧ ¬ '\n' ∈ a) :
    rustLines (bulletBlock A) = A.map (fun a => '-' :: ' ' :: a) := by
  induction A with
  | nil => decide
  | cons a rest ih =>
    obtain ⟨hne, ht, hnl⟩ := hA a (List.mem_cons_self _ _)
    rw [bulletBlock_cons, rustLines_append_newline,
      splitNl_no_newline (no_newline_dash_space hnl),
      ih (fun x hx => hA x (List.mem_cons_of_mem _ hx))]
    simp [stripCr_dash_space hne ht]

theorem bulletsOfLines_append (X Y : List (List Char)) :
    bulletsOfLines (X ++ Y) = bulletsOfLines X ++ bulletsOfLines Y := by
  simp [bulletsOfLines]

theorem plainsOfLines_append (X Y : List (List Char)) :
    plainsOfLines (X ++ Y) = plainsOfLines X ++ plainsOfLines Y := by
  simp [plainsOfLines]

theorem bulletsOfLines_splitNl_stripCr (pre : List Char) :
    bulletsOfLines ((splitNl pre).map stripCr) = bulletsOfLines (rustLines pre) := by
  rw [rustLines, dropLastEmptyLine]
  by_cases h : (splitNl pre).getLast? = some []
  · rw [if_pos h]
    have hx : (splitNl pre).dropLast ++ [[]] = splitNl pre :=
      List.dropLast_append_getLast? [] (by simp [Option.mem_def, h])
    conv_lhs => rw [← hx]
    rw [List.map_append, bulletsOfLines_append]
    have hempty : bulletsOfLines ([([] : List Char)].map stripCr) = [] := by decide
    rw [hempty, List.append_nil]
  · rw [if_neg h]

theorem plainsOfLines_splitNl_stripCr (pre : List Char) :
    plainsOfLines ((splitNl pre).map stripCr) = plainsOfLines (rustLines pre) := by
  rw [rustLines, dropLastEmptyLine]
  by_cases h : (splitNl pre).getLast? = some []
  · rw [if_pos h]
    have hx : (splitNl pre).dropLast ++ [[]] = splitNl pre :=
      List.dropLast_append_getLast? [] (by simp [Option.mem_def, h])
    conv_lhs => rw [← hx]
    rw [List.map_append, plainsOfLines_append]
    have hempty : plainsOfLines ([([] : List Char)].map stripCr) = [] := by decide
    rw [hempty, List.append_nil]
  · rw [if_neg h]

theorem dash_space_line_cond {a : List Char} (hne : a ≠ [])
    (ht : rustTrim a = a) :
    ¬ ((rustTrim ('-' :: ' ' :: a)).isEmpty ∨
      (rustTrim ('-' :: ' ' :: a)).head? = some '#') := by
  rw [rustTrim_dash_space hne ht]
  intro hcon
  rcases hcon with h1 | h1
  · simp at h1
  · simp only [List.head?_cons, Option.some_inj] at h1
    exact absurd h1 (by decide)

theorem bulletsOfLines_map_dash {A : List (List Char)}
    (hA : ∀ a ∈ A, a ≠ [] ∧ rustTrim a = a) :
    bulletsOfLines (A.map (fun a => '-' :: ' ' :: a)) = A := by
  induction A with
  | nil => rfl
  | cons a rest ih =>
    obtain ⟨hne, ht⟩ := hA a (List.mem_cons_self _ _)
    rw [List.map_cons,
      bulletsOfLines_cons_bullet _ (dash_space_line_cond hne ht)
        (by rw [rustTrim_dash_space hne ht]; rfl),
      ht, ih (fun x hx => hA x (List.mem_cons_of_mem _ hx))]

theorem plainsOfLines_map_dash {A : List (List Char)}
    (hA : ∀ a ∈ A, a ≠ [] ∧ rustTrim a = a) :
    plainsOfLines (A.map (fun a => '-' :: ' ' :: a)) = [] := by
  induction A with
  | nil => rfl
  | cons a rest ih =>
    obtain ⟨hne, ht⟩ := hA a (List.mem_cons_self _ _)
    rw [List.map_cons,
      plainsOfLines_cons_bullet _ (dash_space_line_cond hne ht)
        (by rw [rustTrim_dash_space hne ht]; rfl),
      ih (fun x hx => hA x (List.mem_cons_of_mem _ hx))]

/-- Parsing a file made of `pre`, a newline, and a block of clean bullet
lines yields the bullet notes of `pre` followed by the block's notes. -/
theorem parse_memories_append_block {pre : List Char} {A : List (List Char)}
    (hA : ∀ a ∈ A, a ≠ [] ∧ rustTrim a = a ∧ ¬ '\n' ∈ a) (hAne : A ≠ []) :
    parse_memories (pre ++ '\n' :: bulletBlock A) =
      bulletsOfLines (rustLines pre) ++ A := by
  rw [parse_memories_eq, rustLines_append_newline, rustLines_bulletBlock hA,
    bulletsOfLines_append, bulletsOfLines_splitNl_stripCr,
    bulletsOfLines_map_dash (fun a ha => ⟨(hA a ha).1, (hA a ha).2.1⟩)]
  rw [if_neg (by simp [hAne])]

theorem computeAdditions_clean {existing entries : List (List Char)}
    (hent : ∀ e ∈ entries, ¬ '\n' ∈ e) :
    ∀ a ∈ computeAdditions existing entries,
      a ≠ [] ∧ rustTrim a = a ∧ ¬ '\n' ∈ a := by
  intro a ha
  rw [computeAdditions_eq] at ha
  obtain ⟨⟨e, he, hae⟩, hne, -⟩ := mem_novelCandidates ha
  subst hae
  exact ⟨hne, rustTrim_idem e, fun hm => hent e he (mem_rustTrim hm)⟩

theorem novelCandidates_pairwise (seen es : List (List Char)) :
    (novelCandidates seen es).Pairwise
      (fun a b => ¬ toAsciiLower a = toAsciiLower b) := by
  induction es generalizing seen with
  | nil => simp [novelCandidates]
  | cons e rest ih =>
    rw [novelCandidates]
    by_cases he : (rustTrim e).isEmpty
    · rw [if_pos he]
      exact ih seen
    · rw [if_neg he]
      by_cases hk : toAsciiLower (rustTrim e) ∈ seen
      · rw [if_pos hk]
        exact ih seen
      · rw [if_neg hk]
        refine List.Pairwise.cons ?_ (ih _)
        intro b hb heq
        exact (mem_novelCandidates hb).2.2 (heq ▸ List.mem_cons_self _ _)

/-! ### No newline inside parsed notes -/

theorem mem_stripBullet {t e : List Char} (h : stripBullet t = some e) :
    ∀ x ∈ e, x ∈ t := by
  rw [stripBullet.eq_def] at h
  split at h
  · cases h
    intro x hx
    exact List.mem_cons_of_mem _ (List.mem_cons_of_mem _ hx)
  · cases h
    intro x hx
    exact List.mem_cons_of_mem _ (List.mem_cons_of_mem _ hx)
  · cases h

theorem mem_stripCr {l : List Char} {x : Char} (h : x ∈ stripCr l) : x ∈ l := by
  rw [stripCr] at h
  split at h
  · exact (List.dropLast_sublist l).subset h
  · exact h

theorem mem_dropLastEmptyLine {L : List (List Char)} {l : List Char}
    (h : l ∈ dropLastEmptyLine L) : l ∈ L := by
  rw [dropLastEmptyLine] at h
  split at h
  · exact (List.dropLast_sublist L).subset h
  · exact h

theorem mem_rustLines_no_newline {s line : List Char} (h : line ∈ rustLines s) :
    ¬ '\n' ∈ line := by
  rw [rustLines] at h
  obtain ⟨l, hl, rfl⟩ := List.mem_map.mp h
  intro hmem
  exact mem_splitNl_no_newline (mem_dropLastEmptyLine hl) (mem_stripCr hmem)

theorem mem_bulletsOfLines_no_newline {L : List (List Char)} {a : List Char}
    (hL : ∀ line ∈ L, ¬ '\n' ∈ line) (h : a ∈ bulletsOfLines L) :
    ¬ '\n' ∈ a := by
  rw [bulletsOfLines] at h
  obtain ⟨line, hline, hf⟩ := List.mem_filterMap.mp h
  intro hmem
  apply hL line hline
  by_cases hc : (rustTrim line).isEmpty ∨ (rustTrim line).head? = some '#'
  · rw [if_pos hc] at hf
    cases hf
  · rw [if_neg hc] at hf
    cases hs : stripBullet (rustTrim line) with
    | some entry =>
      rw [hs] at hf
      cases hf
      exact mem_rustTrim (mem_stripBullet hs _ (mem_rustTrim hmem))
    | none => rw [hs] at hf; cases hf

theorem mem_plainsOfLines_no_newline {L : List (List Char)} {a : List Char}
    (hL : ∀ line ∈ L, ¬ '\n' ∈ line) (h : a ∈ plainsOfLines L) :
    ¬ '\n' ∈ a := by
  rw [plainsOfLines] at h
  obtain ⟨line, hline, hf⟩ := List.mem_filterMap.mp h
  intro hmem
  apply hL line hline
  by_cases hc : (rustTrim line).isEmpty ∨ (rustTrim line).head? = some '#'
  · rw [if_pos hc] at hf
    cases hf
  · rw [if_neg hc] at hf
    cases hs : stripBullet (rustTrim line) with
    | some entry => rw [hs] at hf; cases hf
    | none =>
      rw [hs] at hf
      cases hf
      exact mem_rustTrim hmem

theorem mem_parse_memories_no_newline {text a : List Char}
    (h : a ∈ parse_memories text) : ¬ '\n' ∈ a := by
  rw [parse_memories_eq] at h
  have hL : ∀ line ∈ rustLines text, ¬ '\n' ∈ line :=
    fun line hl => mem_rustLines_no_newline hl
  by_cases hb : (bulletsOfLines (rustLines text)).isEmpty
  · rw [if_pos hb] at h
    exact mem_plainsOfLines_no_newline hL h
  · rw [if_neg hb] at h
    exact mem_bulletsOfLines_no_newline hL h

theorem mem_read_memories_file_no_newline {data? : Option (List Nat)}
    {a : List Char} (h : a ∈ read_memories_file data?) : ¬ '\n' ∈ a := by
  match data? with
  | none => cases h
  | some data =>
    rw [read_memories_file] at h
    by_cases he : data.isEmpty
    · rw [if_pos he] at h
      cases h
    · rw [if_neg he] at h
      exact mem_parse_memories_no_newline h

/-! ### Rendering of the instructions block -/

theorem intercalate_newline_singleton (p : List Char) :
    List.intercalate ['\n'] [p] = p := by
  simp [List.intercalate]

theorem intercalate_newline_cons_cons (p q : List Char)
    (rest : List (List Char)) :
    List.intercalate ['\n'] (p :: q :: rest) =
      p ++ '\n' :: List.intercalate ['\n'] (q :: rest) := by
  simp [List.intercalate, List.intersperse_cons_cons]

theorem splitNl_intercalate :
    ∀ {parts : List (List Char)}, (∀ p ∈ parts, ¬ '\n' ∈ p) → parts ≠ [] →
      splitNl (List.intercalate ['\n'] parts) = parts := by
  intro parts
  induction parts with
  | nil => intro _ hne; exact absurd rfl hne
  | cons p rest ih =>
    intro h _
    cases rest with
    | nil =>
      rw [intercalate_newline_singleton,
        splitNl_no_newline (h p (List.mem_cons_self _ _))]
    | cons q rest2 =>
      rw [intercalate_newline_cons_cons, splitNl_append_newline,
        splitNl_no_newline (h p (List.mem_cons_self _ _)),
        ih (fun x hx => h x (List.mem_cons_of_mem _ hx)) (by simp)]
      rfl

/-! ### Stream abort -/

theorem abortsStream_runStream :
    ∀ {events : List StreamEvent}, abortsStream events →
      ∀ items streamed, runStream events items streamed = StreamOutcome.aborted := by
  intro events
  induction events with
  | nil => intro _ items streamed; rfl
  | cons e rest ih =>
    intro h items streamed
    match e with
    | StreamEvent.error => rfl
    | StreamEvent.ok RespEvent.Completed => exact absurd h (by simp [abortsStream])
    | StreamEvent.ok (RespEvent.OutputItemDone (RespItem.Message (some t))) =>
      exact ih h _ _
    | StreamEvent.ok (RespEvent.OutputItemDone (RespItem.Message none)) =>
      exact ih h _ _
    | StreamEvent.ok (RespEvent.OutputItemDone RespItem.OtherItem) =>
      exact ih h _ _
    | StreamEvent.ok (RespEvent.OutputTextDelta d) => exact ih h _ _
    | StreamEvent.ok RespEvent.RateLimits => exact ih h _ _
    | StreamEvent.ok RespEvent.OtherEvent => exact ih h _ _

/-! ### Read-after-append -/

theorem read_of_content {fs : FileSystem} {path : FsPath} {oldText : List Char}
    (hcontent : fsRead fs path = some (utf8Encode oldText) ∨
      (fsRead fs path = none ∧ oldText = []))
    (hcap : (utf8Encode oldText).length ≤ MEMORIES_MAX_BYTES) :
    read_memories_file (fsRead fs path) = parse_memories oldText := by
  rcases hcontent with hc | ⟨hc, ho⟩
  · rw [hc, read_memories_file_encode hcap]
  · rw [hc, ho]
    decide

theorem computeAdditions_nil_of_entries_nil (existing : List (List Char)) :
    computeAdditions existing [] = [] := rfl

/-- After a successful append on a store holding the UTF-8 text `oldText`
(or absent), with newline-free candidates and the resulting file inside the
byte cap: the count is the number of novel candidates, the new file bytes are
the old bytes followed by the header or separator and the bullet block, and a
re-read parses to the old bullet notes followed by the additions. -/
theorem append_memories_master {fs : FileSystem} {path : FsPath}
    {entries : List (List Char)} {oldText : List Char}
    (hcontent : fsRead fs path = some (utf8Encode oldText) ∨
      (fsRead fs path = none ∧ oldText = []))
    (hclean : ∀ e ∈ entries, ¬ '\n' ∈ e)
    (hcap : (utf8Encode oldText).length + 11 +
      (utf8Encode (bulletBlock
        (computeAdditions (parse_memories oldText) entries))).length ≤
      MEMORIES_MAX_BYTES)
    (hAne : computeAdditions (parse_memories oldText) entries ≠ []) :
    (append_memories fs path entries).2 =
      (computeAdditions (parse_memories oldText) entries).length ∧
    fsRead (append_memories fs path entries).1 path =
      some (utf8Encode oldText ++
        (if oldText = [] then utf8Encode (MEMORIES_FILE_HEADER ++ ['\n'])
        else utf8Encode ['\n']) ++
        utf8Encode (bulletBlock
          (computeAdditions (parse_memories oldText) entries))) ∧
    read_memories_file (fsRead (append_memories fs path entries).1 path) =
      bulletsOfLines (rustLines oldText) ++
        computeAdditions (parse_memories oldText) entries := by
  have hcapOld : (utf8Encode oldText).length ≤ MEMORIES_MAX_BYTES := by omega
  have hread : read_memories_file (fsRead fs path) = parse_memories oldText :=
    read_of_content hcontent hcapOld
  have hentne : entries ≠ [] := by
    intro h
    subst h
    exact hAne (computeAdditions_nil_of_entries_nil _)
  have happ := @append_memories_eq fs path entries hentne
    (by rw [hread]; exact hAne)
  rw [hread] at happ
  have hAclean : ∀ a ∈ computeAdditions (parse_memories oldText) entries,
      a ≠ [] ∧ rustTrim a = a ∧ ¬ '\n' ∈ a := computeAdditions_clean hclean
  have hheadenc : (utf8Encode (MEMORIES_FILE_HEADER ++ ['\n'])).length = 11 := by
    decide
  have hheadbul : bulletsOfLines (rustLines MEMORIES_FILE_HEADER) = [] := by
    decide
  have hold : (fsRead fs path).getD [] = utf8Encode oldText := by
    rcases hcontent with hc | ⟨hc, ho⟩
    · rw [hc]; rfl
    · rw [hc, ho]; rfl
  rw [hold] at happ
  by_cases ho : oldText = []
  · subst ho
    have hempty : (utf8Encode ([] : List Char)).isEmpty := by decide
    rw [if_pos hempty] at happ
    have hpost : utf8Encode ([] : List Char) ++
        utf8Encode (MEMORIES_FILE_HEADER ++ ['\n']) ++
        utf8Encode (bulletBlock
          (computeAdditions (parse_memories ([] : List Char)) entries)) =
        utf8Encode (MEMORIES_FILE_HEADER ++ '\n' :: bulletBlock
          (computeAdditions (parse_memories ([] : List Char)) entries)) := by
      simp [utf8Encode]
    have hlen : (utf8Encode (MEMORIES_FILE_HEADER ++ '\n' :: bulletBlock
        (computeAdditions (parse_memories ([] : List Char)) entries))).length ≤
        MEMORIES_MAX_BYTES := by
      rw [← hpost]
      simp only [List.length_append, hheadenc]
      have h0 : (utf8Encode ([] : List Char)).length = 0 := by decide
      omega
    refine ⟨by rw [happ], ?_, ?_⟩
    · rw [happ, fsRead_fsSetFile_self, if_pos rfl]
    · rw [happ, fsRead_fsSetFile_self, hpost, read_memories_file_encode hlen,
        parse_memories_append_block hAclean hAne, hheadbul]
      have hbnil : bulletsOfLines (rustLines ([] : List Char)) = [] := by decide
      rw [hbnil]
  · have hencne : ¬ (utf8Encode oldText).isEmpty := by
      simpa using fun hcon => ho ((utf8Encode_eq_nil_iff oldText).mp hcon)
    rw [if_neg hencne] at happ
    have hpost : utf8Encode (oldText ++ '\n' :: bulletBlock
        (computeAdditions (parse_memories oldText) entries)) =
        utf8Encode oldText ++ utf8Encode ['\n'] ++
        utf8Encode (bulletBlock
          (computeAdditions (parse_memories oldText) entries)) := by
      simp [utf8Encode]
    have hlen : (utf8Encode (oldText ++ '\n' :: bulletBlock
        (computeAdditions (parse_memories oldText) entries))).length ≤
        MEMORIES_MAX_BYTES := by
      rw [hpost]
      simp only [List.length_append]
      have h1 : (utf8Encode ['\n']).length = 1 := by decide
      omega
    refine ⟨by rw [happ], ?_, ?_⟩
    · rw [happ, fsRead_fsSetFile_self, if_neg ho]
    · rw [happ, fsRead_fsSetFile_self, ← hpost, read_memories_file_encode hlen,
        parse_memories_append_block hAclean hAne]

/-! ### Claim theorems -/

/-- C1 counterexample: on the input `"  hello  "` there is no bullet line and
one non-blank non-heading line, but `parse_memories` returns the trimmed line
`"hello"`, not the verbatim line `"  hello  "` the claim requires. -/
theorem c1_counterexample :
    bulletsOfLines (rustLines "  hello  ".toList) = [] ∧
    storeParserClaimed "  hello  ".toList = ["  hello  ".toList] ∧
    parse_memories "  hello  ".toList = ["hello".toList] ∧
    ¬ parse_memories "  hello  ".toList = storeParserClaimed "  hello  ".toList := by
  decide

/-- C1 (amended): for every input text, `parse_memories` returns exactly the
trimmed bullet bodies of the lines whose trimmed form starts with `- ` or
`* ` (in file order, other lines ignored) when at least one such line exists,
and otherwise the TRIMMED form of every line that is non-blank after trimming
and whose trimmed form does not start with `#`, in order. -/
theorem c1_store_parser_characterization (text : List Char) :
    parse_memories text =
      if (bulletsOfLines (rustLines text)).isEmpty then
        plainsOfLines (rustLines text)
      else bulletsOfLines (rustLines text) :=
  parse_memories_eq text

/-- C5: `parse_memory_candidates` equals the first-seen case-insensitive
deduplication of the raw entries (each line trimmed, with a leading `- `/`* `
marker stripped and the remainder re-trimmed); the result is a subsequence of
the raw entries (first-seen casing and order), its lowercase keys are pairwise
distinct, and every raw entry's key is represented. -/
theorem c5_candidate_dedup (text : List Char) :
    parse_memory_candidates text = firstSeenDedup [] (candidateRawEntries text) ∧
    List.Sublist (parse_memory_candidates text) (candidateRawEntries text) ∧
    (parse_memory_candidates text).Pairwise
      (fun a b => ¬ toAsciiLower a = toAsciiLower b) ∧
    ∀ e ∈ candidateRawEntries text,
      toAsciiLower e ∈ (parse_memory_candidates text).map toAsciiLower := by
  refine ⟨parse_memory_candidates_eq text, ?_, ?_, ?_⟩
  · rw [parse_memory_candidates_eq]
    exact firstSeenDedup_sublist [] _
  · rw [parse_memory_candidates_eq]
    exact firstSeenDedup_pairwise [] _
  · intro e he
    rw [parse_memory_candidates_eq]
    rcases firstSeenDedup_covers [] (candidateRawEntries text) e he with h | h
    · simp at h
    · exact h

theorem c5_witness :
    parse_memory_candidates "- A\na".toList =
      firstSeenDedup [] (candidateRawEntries "- A\na".toList) ∧
    toAsciiLower "a".toList ∈
      (parse_memory_candidates "- A\na".toList).map toAsciiLower :=
  ⟨(c5_candidate_dedup "- A\na".toList).1,
    (c5_candidate_dedup "- A\na".toList).2.2.2 "a".toList (by decide)⟩

/-- C6: a blank (whitespace-only) response, or one whose trimmed form equals
the sentinel `NO_MEMORIES` ignoring ASCII case, parses to no candidates. -/
theorem c6_candidate_sentinel (text : List Char)
    (h : (∀ c ∈ text, isRustWhitespace c) ∨
      eqIgnoreAsciiCase (rustTrim text) NO_MEMORIES_RESPONSE) :
    parse_memory_candidates text = [] := by
  rw [parse_memory_candidates]
  rcases h with h | h
  · rw [if_pos (Or.inl (by simpa using rustTrim_eq_nil_of_all_ws h))]
  · rw [if_pos (Or.inr h)]

theorem c6_witness :
    eqIgnoreAsciiCase (rustTrim " no_Memories ".toList) NO_MEMORIES_RESPONSE ∧
    parse_memory_candidates " no_Memories ".toList = [] :=
  ⟨by decide, c6_candidate_sentinel _ (Or.inr (by decide))⟩

/-- C7: a store file at or below the 8 KiB cap is decoded and parsed in
full; one whose byte length exceeds the cap reads exactly as if it contained
only its trailing cap-sized byte window (the oldest bytes are discarded and
the kept window has exactly the cap's length). -/
theorem c7_read_cap (data : List Nat) :
    (data.length ≤ MEMORIES_MAX_BYTES →
      read_memories_file (some data) = parse_memories (utf8Lossy data)) ∧
    (data.length > MEMORIES_MAX_BYTES →
      read_memories_file (some data) =
        read_memories_file
          (some (data.drop (data.length - MEMORIES_MAX_BYTES))) ∧
      (data.drop (data.length - MEMORIES_MAX_BYTES)).length =
        MEMORIES_MAX_BYTES) := by
  constructor
  · intro h
    rw [read_memories_file]
    by_cases he : data.isEmpty
    · rw [if_pos he]
      have hdata : data = [] := by simpa using he
      subst hdata
      decide
    · rw [if_neg he, if_neg (by omega)]
  · intro h
    have hlen : (data.drop (data.length - MEMORIES_MAX_BYTES)).length =
        MEMORIES_MAX_BYTES := by
      rw [List.length_drop]
      omega
    refine ⟨?_, hlen⟩
    rw [read_memories_file, read_memories_file]
    have hne : ¬ data.isEmpty := by
      simp only [List.isEmpty_iff]
      intro hcon
      subst hcon
      simp [MEMORIES_MAX_BYTES] at h
    have hwne : ¬ (data.drop (data.length - MEMORIES_MAX_BYTES)).isEmpty := by
      simp only [List.isEmpty_iff]
      intro hcon
      rw [hcon] at hlen
      simp [MEMORIES_MAX_BYTES] at hlen
    rw [if_neg hne, if_pos (by omega), if_neg hwne, if_neg (by omega)]

theorem c7_witness :
    (List.replicate 8193 (97 : Nat)).length > MEMORIES_MAX_BYTES ∧
    read_memories_file (some (List.replicate 8193 (97 : Nat))) =
      read_memories_file (some ((List.replicate 8193 (97 : Nat)).drop
        ((List.replicate 8193 (97 : Nat)).length - MEMORIES_MAX_BYTES))) := by
  have hlen : (List.replicate 8193 (97 : Nat)).length = 8193 := by
    rw [List.length_replicate]
  constructor
  · rw [hlen]
    decide
  · exact ((c7_read_cap (List.replicate 8193 97)).2 (by rw [hlen]; decide)).1

/-- C9: when the extraction stream fails to start (`none`), or yields an
error or closes before ever yielding a completion event (`abortsStream`),
`maybe_record_memories` leaves the filesystem untouched: no write happens. -/
theorem c9_no_write_on_stream_failure (fs : FileSystem) (source : SessionSource)
    (inputs : List UserInput) (path : FsPath) :
    maybe_record_memories fs source inputs none path = fs ∧
    ∀ events, abortsStream events →
      maybe_record_memories fs source inputs (some events) path = fs := by
  constructor
  · rw [maybe_record_memories]
    by_cases h1 : ¬ should_record_memories source
    · rw [if_pos h1]
    · rw [if_neg h1]
      by_cases h2 : (collect_user_input_texts inputs).isEmpty
      · rw [if_pos h2]
      · rw [if_neg h2]
  · intro events hab
    rw [maybe_record_memories]
    by_cases h1 : ¬ should_record_memories source
    · rw [if_pos h1]
    · rw [if_neg h1]
      by_cases h2 : (collect_user_input_texts inputs).isEmpty
      · rw [if_pos h2]
      · rw [if_neg h2]
        have hrun := abortsStream_runStream hab ([] : List (List Char))
          ([] : List Char)
        simp only [hrun]

theorem foldl_read_paths (fs : FileSystem) (paths : List FsPath) :
    ∀ acc, paths.foldl
        (fun acc p => mergeNotesLoop acc (read_memories_file (fsRead fs p)))
        acc =
      mergeNotesLoop acc
        ((paths.map (fun p => read_memories_file (fsRead fs p))).flatten) := by
  induction paths with
  | nil => intro acc; rfl
  | cons p rest ih =>
    intro acc
    rw [List.foldl_cons, ih, List.map_cons, List.flatten_cons,
      mergeNotesLoop_append]

/-- C4: the reader's block is `none` exactly when the global first-seen
lowercase-key merge of the notes of all resolved paths is empty; otherwise it
is the fixed header line followed by one `- <note>` line per merged note in
merge order; the merge deduplicates globally across paths. -/
theorem c4_reader_merge (fs : FileSystem) (paths : List FsPath) :
    (read_memories_for_instructions fs paths = none ↔
      novelCandidates []
        ((paths.map (fun p => read_memories_file (fsRead fs p))).flatten) =
        []) ∧
    (novelCandidates []
        ((paths.map (fun p => read_memories_file (fsRead fs p))).flatten) ≠
        [] →
      ∃ s, read_memories_for_instructions fs paths = some s ∧
        splitNl s = MEMORIES_HEADER ::
          (novelCandidates []
            ((paths.map
              (fun p => read_memories_file (fsRead fs p))).flatten)).map
            (fun e => '-' :: ' ' :: e)) ∧
    (novelCandidates []
      ((paths.map (fun p => read_memories_file (fsRead fs p))).flatten)).Pairwise
      (fun a b => ¬ toAsciiLower a = toAsciiLower b) ∧
    ∀ v ∈ (paths.map (fun p => read_memories_file (fsRead fs p))).flatten,
      rustTrim v = [] ∨ toAsciiLower (rustTrim v) ∈
        (novelCandidates []
          ((paths.map (fun p => read_memories_file (fsRead fs p))).flatten)).map
          toAsciiLower := by
  have hfold : read_memories_for_instructions fs paths =
      build_memories_section (novelCandidates []
        ((paths.map (fun p => read_memories_file (fsRead fs p))).flatten)) := by
    rw [read_memories_for_instructions, foldl_read_paths, mergeNotesLoop_eq]
    simp
  refine ⟨?_, ?_, novelCandidates_pairwise _ _, ?_⟩
  · rw [hfold, build_memories_section]
    by_cases h : (novelCandidates []
        ((paths.map (fun p => read_memories_file (fsRead fs p))).flatten)).isEmpty
    · rw [if_pos h]
      simpa using h
    · rw [if_neg h]
      constructor
      · intro hcon
        cases hcon
      · intro hcon
        rw [List.isEmpty_iff] at h
        exact absurd hcon h
  · intro hne
    rw [hfold, build_memories_section, if_neg (by simpa using hne)]
    refine ⟨_, rfl, splitNl_intercalate ?_ (by simp)⟩
    intro part hpart
    rcases List.mem_cons.mp hpart with h1 | h1
    · subst h1
      decide
    · obtain ⟨e, he, rfl⟩ := List.mem_map.mp h1
      obtain ⟨⟨v, hv, hev⟩, -, -⟩ := mem_novelCandidates he
      have hvn : ¬ '\n' ∈ v := by
        obtain ⟨l, hl, hvl⟩ := List.mem_flatten.mp hv
        obtain ⟨p, -, rfl⟩ := List.mem_map.mp hl
        exact mem_read_memories_file_no_newline hvl
      exact no_newline_dash_space (hev ▸ fun hm => hvn (mem_rustTrim hm))
  · intro v hv
    rcases novelCandidates_covers []
        ((paths.map (fun p => read_memories_file (fsRead fs p))).flatten) v hv
      with h | h | h
    · exact Or.inl h
    · simp at h
    · exact Or.inr h

theorem c4_witness :
    (read_memories_for_instructions
        ⟨[([".codex".toList, "memories.md".toList],
          utf8Encode "# Memories\n- a\n".toList)], []⟩
        [[".codex".toList, "memories.md".toList]] = none ↔
      novelCandidates []
        (([[".codex".toList, "memories.md".toList]].map
          (fun p => read_memories_file (fsRead
            ⟨[([".codex".toList, "memories.md".toList],
              utf8Encode "# Memories\n- a\n".toList)], []⟩ p))).flatten) =
        []) ∧
    (rustTrim "a".toList = [] ∨ toAsciiLower (rustTrim "a".toList) ∈
      (novelCandidates []
        (([[".codex".toList, "memories.md".toList]].map
          (fun p => read_memories_file (fsRead
            ⟨[([".codex".toList, "memories.md".toList],
              utf8Encode "# Memories\n- a\n".toList)], []⟩ p))).flatten)).map
        toAsciiLower) :=
  ⟨(c4_reader_merge _ _).1,
    (c4_reader_merge _ _).2.2.2 "a".toList (by decide)⟩

/-- C2 counterexample: with the store holding the plain-line note `alpha` and
the batch `["alpha", "beta"]`, the first append writes one line, and
re-running the identical append against the now-populated store appends one
more line (not zero): the bullet-preferring parser has hidden the plain note
`alpha`, so it is re-added. -/
theorem c2_counterexample :
    (append_memories
      ⟨[([".codex".toList, "memories.md".toList],
        utf8Encode "alpha\n".toList)], []⟩
      [".codex".toList, "memories.md".toList]
      ["alpha".toList, "beta".toList]).2 = 1 ∧
    (append_memories
      (append_memories
        ⟨[([".codex".toList, "memories.md".toList],
          utf8Encode "alpha\n".toList)], []⟩
        [".codex".toList, "memories.md".toList]
        ["alpha".toList, "beta".toList]).1
      [".codex".toList, "memories.md".toList]
      ["alpha".toList, "beta".toList]).2 = 1 := by
  decide

/-- C2 (amended): unconditionally, if the candidate list is empty, or every
non-blank candidate's lowercase trimmed key already occurs among the notes
parsed from the file at the path, `append_memories` returns 0 and leaves the
filesystem untouched; and — provided the store is UTF-8 text whose parse
yields bullet notes or no notes at all, the candidates contain no newline,
and the resulting file stays within the byte cap — running the identical
append a second time against the now-populated store appends zero new
lines. -/
theorem c2_append_dedup (fs : FileSystem) (path : FsPath)
    (entries : List (List Char)) :
    ((entries = [] ∨ ∀ e ∈ entries, rustTrim e = [] ∨
        toAsciiLower (rustTrim e) ∈
          (read_memories_file (fsRead fs path)).map toAsciiLower) →
      append_memories fs path entries = (fs, 0)) ∧
    (∀ oldText : List Char,
      (fsRead fs path = some (utf8Encode oldText) ∨
        (fsRead fs path = none ∧ oldText = [])) →
      (∀ e ∈ entries, ¬ '\n' ∈ e) →
      (bulletsOfLines (rustLines oldText) ≠ [] ∨
        parse_memories oldText = []) →
      (utf8Encode oldText).length + 11 +
        (utf8Encode (bulletBlock
          (novelCandidates ((parse_memories oldText).map toAsciiLower)
            entries))).length ≤ MEMORIES_MAX_BYTES →
      append_memories (append_memories fs path entries).1 path entries =
        ((append_memories fs path entries).1, 0)) := by
  constructor
  · intro hcov
    rcases hcov with hcov | hcov
    · subst hcov
      rw [append_memories, if_pos (show ([] : List (List Char)).isEmpty = true
        by decide)]
    · apply append_memories_no_additions
      rw [computeAdditions_eq]
      exact novelCandidates_eq_nil hcov
  · intro oldText hcontent hclean hbul hcap
    have hcapOld : (utf8Encode oldText).length ≤ MEMORIES_MAX_BYTES := by omega
    have hread := read_of_content hcontent hcapOld
    have hCA := computeAdditions_eq (parse_memories oldText) entries
    by_cases hA : computeAdditions (parse_memories oldText) entries = []
    · have h0 : append_memories fs path entries = (fs, 0) :=
        append_memories_no_additions (by rw [hread]; exact hA)
      rw [h0]
      exact h0
    · obtain ⟨hcount, hcontent2, hreparse⟩ := append_memories_master hcontent
        hclean (by rw [hCA]; exact hcap) hA
      apply append_memories_no_additions
      rw [hreparse, computeAdditions_eq]
      apply novelCandidates_eq_nil
      intro e he
      rcases novelCandidates_covers ((parse_memories oldText).map toAsciiLower)
          entries e he with h1 | h1 | h1
      · exact Or.inl h1
      · right
        rcases hbul with hb | hb
        · have hpm : parse_memories oldText =
              bulletsOfLines (rustLines oldText) := by
            rw [parse_memories_eq, if_neg (by simpa using hb)]
          rw [hpm] at h1
          rw [List.map_append]
          exact List.mem_append_left _ h1
        · rw [hb] at h1
          simp at h1
      · right
        rw [List.map_append]
        refine List.mem_append_right _ ?_
        rw [hCA]
        exact h1

theorem c2_witness :
    append_memories
      ⟨[([".codex".toList, "memories.md".toList],
        utf8Encode "alpha\n".toList)], []⟩
      [".codex".toList, "memories.md".toList] ["alpha".toList] =
    (⟨[([".codex".toList, "memories.md".toList],
      utf8Encode "alpha\n".toList)], []⟩, 0) ∧
    append_memories
      (append_memories
        ⟨[([".codex".toList, "memories.md".toList],
          utf8Encode "- x\n".toList)], []⟩
        [".codex".toList, "memories.md".toList] ["y".toList]).1
      [".codex".toList, "memories.md".toList] ["y".toList] =
    ((append_memories
      ⟨[([".codex".toList, "memories.md".toList],
        utf8Encode "- x\n".toList)], []⟩
      [".codex".toList, "memories.md".toList] ["y".toList]).1, 0) :=
  ⟨(c2_append_dedup
      ⟨[([".codex".toList, "memories.md".toList],
        utf8Encode "alpha\n".toList)], []⟩
      [".codex".toList, "memories.md".toList] ["alpha".toList]).1
      (Or.inr (by decide)),
    (c2_append_dedup
      ⟨[([".codex".toList, "memories.md".toList],
        utf8Encode "- x\n".toList)], []⟩
      [".codex".toList, "memories.md".toList] ["y".toList]).2 "- x\n".toList
      (Or.inl (by decide)) (by decide) (Or.inl (by decide)) (by decide)⟩

/-- C10 counterexample: the store holds the plain-line note `alpha`; the
single candidate `"beta\n- alpha"` is novel, the append succeeds, and the
subsequent read still contains the pre-existing plain note `alpha` (it came
back as a bullet), so the plain notes do not all disappear. -/
theorem c10_counterexample :
    bulletsOfLines (rustLines "alpha\n".toList) = [] ∧
    parse_memories "alpha\n".toList = ["alpha".toList] ∧
    (append_memories
      ⟨[([".codex".toList, "memories.md".toList],
        utf8Encode "alpha\n".toList)], []⟩
      [".codex".toList, "memories.md".toList]
      ["beta\n- alpha".toList]).2 = 1 ∧
    "alpha".toList ∈ read_memories_file (fsRead
      (append_memories
        ⟨[([".codex".toList, "memories.md".toList],
          utf8Encode "alpha\n".toList)], []⟩
        [".codex".toList, "memories.md".toList]
        ["beta\n- alpha".toList]).1
      [".codex".toList, "memories.md".toList]) := by
  decide

/-- C10 (amended): for a store whose parse used the plain-lines fallback,
after a successful append of newline-free candidates with the resulting file
within the byte cap, a subsequent read returns exactly the appended bullet
notes: every pre-existing plain-line note disappears from the read even
though the old bytes remain at the start of the file. -/
theorem c10_plain_fallback_vanishes (fs : FileSystem) (path : FsPath)
    (entries : List (List Char)) (oldText : List Char)
    (hcontent : fsRead fs path = some (utf8Encode oldText))
    (hplain : bulletsOfLines (rustLines oldText) = [])
    (hnotes : parse_memories oldText ≠ [])
    (hclean : ∀ e ∈ entries, ¬ '\n' ∈ e)
    (hnovel : novelCandidates ((parse_memories oldText).map toAsciiLower)
      entries ≠ [])
    (hcap : (utf8Encode oldText).length + 11 +
      (utf8Encode (bulletBlock
        (novelCandidates ((parse_memories oldText).map toAsciiLower)
          entries))).length ≤ MEMORIES_MAX_BYTES) :
    read_memories_file (fsRead (append_memories fs path entries).1 path) =
      novelCandidates ((parse_memories oldText).map toAsciiLower) entries ∧
    (∀ q ∈ parse_memories oldText,
      ¬ toAsciiLower q ∈ (read_memories_file
        (fsRead (append_memories fs path entries).1 path)).map toAsciiLower) ∧
    fsRead (append_memories fs path entries).1 path =
      some (utf8Encode oldText ++ utf8Encode ['\n'] ++
        utf8Encode (bulletBlock
          (novelCandidates ((parse_memories oldText).map toAsciiLower)
            entries))) := by
  have hCA := computeAdditions_eq (parse_memories oldText) entries
  have hA : computeAdditions (parse_memories oldText) entries ≠ [] := by
    rw [hCA]
    exact hnovel
  obtain ⟨hcount, hcontent2, hreparse⟩ := append_memories_master
    (Or.inl hcontent) hclean (by rw [hCA]; exact hcap) hA
  have hone : ¬ oldText = [] := by
    intro h
    subst h
    exact hnotes (by decide)
  rw [if_neg hone] at hcontent2
  have hres : read_memories_file
      (fsRead (append_memories fs path entries).1 path) =
      novelCandidates ((parse_memories oldText).map toAsciiLower) entries := by
    rw [hreparse, hplain, List.nil_append, hCA]
  refine ⟨hres, ?_, ?_⟩
  · intro q hq hmem
    rw [hres] at hmem
    obtain ⟨a, ha, hak⟩ := List.mem_map.mp hmem
    have hnot := (mem_novelCandidates ha).2.2
    apply hnot
    rw [hak]
    exact List.mem_map_of_mem _ hq
  · rw [hcontent2, hCA]

theorem c10_witness :
    read_memories_file (fsRead
      (append_memories
        ⟨[([".codex".toList, "memories.md".toList],
          utf8Encode "alpha\n".toList)], []⟩
        [".codex".toList, "memories.md".toList] ["beta".toList]).1
      [".codex".toList, "memories.md".toList]) =
    novelCandidates ((parse_memories "alpha\n".toList).map toAsciiLower)
      ["beta".toList] :=
  (c10_plain_fallback_vanishes
    ⟨[([".codex".toList, "memories.md".toList],
      utf8Encode "alpha\n".toList)], []⟩
    [".codex".toList, "memories.md".toList] ["beta".toList] "alpha\n".toList
    (by decide) (by decide) (by decide) (by decide) (by decide) (by decide)).1

/-- C3: with at least one novel non-blank candidate, `append_memories`
creates the parent directory chain, writes the cosmetic header when the file
was empty or absent and a single newline separator otherwise, then the novel
additions as `- <text>` bullet lines in candidate order, and returns the
number of additions written. -/
theorem c3_append_memories_writes (fs : FileSystem) (path : FsPath)
    (entries : List (List Char))
    (hnovel : novelCandidates
      ((read_memories_file (fsRead fs path)).map toAsciiLower) entries ≠ []) :
    append_memories fs path entries =
      (fsSetFile (createDirAll fs path.dropLast) path
        ((fsRead fs path).getD [] ++
          utf8Encode
            ((if ((fsRead fs path).getD []).isEmpty then
                MEMORIES_FILE_HEADER ++ ['\n']
              else ['\n']) ++
              bulletBlock (novelCandidates
                ((read_memories_file (fsRead fs path)).map toAsciiLower)
                entries))),
        (novelCandidates
          ((read_memories_file (fsRead fs path)).map toAsciiLower)
          entries).length) ∧
    (path.dropLast ≠ [] →
      path.dropLast ∈ (append_memories fs path entries).1.dirs) := by
  have hCA := computeAdditions_eq (read_memories_file (fsRead fs path)) entries
  have hadd : computeAdditions (read_memories_file (fsRead fs path)) entries ≠
      [] := by
    rw [hCA]
    exact hnovel
  have hentne : entries ≠ [] := by
    intro h
    subst h
    exact hnovel rfl
  have happ := append_memories_eq hentne hadd
  constructor
  · rw [happ, hCA]
    simp only [utf8Encode_append, apply_ite utf8Encode, List.append_assoc]
  · intro hp
    rw [happ]
    exact mem_dirs_createDirAll fs hp

theorem c3_witness :
    (append_memories ⟨[], []⟩ [".codex".toList, "memories.md".toList]
      ["a".toList]).2 = 1 ∧
    [".codex".toList] ∈
      (append_memories ⟨[], []⟩ [".codex".toList, "memories.md".toList]
        ["a".toList]).1.dirs := by
  have h := c3_append_memories_writes ⟨[], []⟩
    [".codex".toList, "memories.md".toList] ["a".toList] (by decide)
  constructor
  · rw [h.1]
    decide
  · exact h.2 (by decide)

/-- C8: when the candidate parser yields more than `MAX_NEW_MEMORIES_PER_TURN`
(6) candidates, the orchestrator truncates the list to its first 6 entries
before the write is attempted; the kept list has exactly 6 entries (entries
beyond the 6th are dropped, not rotated). -/
theorem c8_candidate_truncation (fs : FileSystem) (source : SessionSource)
    (inputs : List UserInput) (path : FsPath) (events : List StreamEvent)
    (outputItems : List (List Char)) (streamedText rawOutput : List Char)
    (hsrc : should_record_memories source)
    (hinp : ¬ (collect_user_input_texts inputs).isEmpty)
    (hrun : runStream events [] [] =
      StreamOutcome.completed outputItems streamedText)
    (hraw : rawOutput = if outputItems.isEmpty then streamedText
      else List.intercalate ['\n'] outputItems)
    (hlen : (parse_memory_candidates rawOutput).length >
      MAX_NEW_MEMORIES_PER_TURN) :
    maybe_record_memories fs source inputs (some events) path =
      (append_memories fs path
        ((parse_memory_candidates rawOutput).take
          MAX_NEW_MEMORIES_PER_TURN)).1 ∧
    ((parse_memory_candidates rawOutput).take
      MAX_NEW_MEMORIES_PER_TURN).length = MAX_NEW_MEMORIES_PER_TURN := by
  constructor
  · rw [maybe_record_memories, if_neg (not_not_intro hsrc), if_neg hinp]
    simp only [hrun]
    rw [← hraw]
    have hne : ¬ (parse_memory_candidates rawOutput).isEmpty := by
      simp only [List.isEmpty_iff]
      intro hcon
      rw [hcon] at hlen
      simp [MAX_NEW_MEMORIES_PER_TURN] at hlen
    rw [if_neg hne, if_pos hlen]
  · rw [List.length_take]
    exact Nat.min_eq_left (Nat.le_of_lt hlen)

theorem c8_witness :
    maybe_record_memories ⟨[], []⟩ SessionSource.Interactive
        [UserInput.Text "hi".toList]
        (some [StreamEvent.ok
            (RespEvent.OutputTextDelta "a\nb\nc\nd\ne\nf\ng".toList),
          StreamEvent.ok RespEvent.Completed])
        [".codex".toList, "memories.md".toList] =
      (append_memories ⟨[], []⟩ [".codex".toList, "memories.md".toList]
        ((parse_memory_candidates "a\nb\nc\nd\ne\nf\ng".toList).take
          MAX_NEW_MEMORIES_PER_TURN)).1 :=
  (c8_candidate_truncation ⟨[], []⟩ SessionSource.Interactive
    [UserInput.Text "hi".toList] [".codex".toList, "memories.md".toList]
    [StreamEvent.ok (RespEvent.OutputTextDelta "a\nb\nc\nd\ne\nf\ng".toList),
      StreamEvent.ok RespEvent.Completed]
    [] "a\nb\nc\nd\ne\nf\ng".toList "a\nb\nc\nd\ne\nf\ng".toList
    (by decide) (by decide) (by decide) rfl (by decide)).1

theorem c9_witness :
    maybe_record_memories ⟨[], []⟩ SessionSource.Interactive
        [UserInput.Text "hi".toList]
        (some [StreamEvent.ok RespEvent.RateLimits, StreamEvent.error])
        [".codex".toList, "memories.md".toList] = ⟨[], []⟩ ∧
    maybe_record_memories ⟨[], []⟩ SessionSource.Interactive
        [UserInput.Text "hi".toList] none
        [".codex".toList, "memories.md".toList] = ⟨[], []⟩ :=
  ⟨(c9_no_write_on_stream_failure ⟨[], []⟩ SessionSource.Interactive
      [UserInput.Text "hi".toList] [".codex".toList, "memories.md".toList]).2
      [StreamEvent.ok RespEvent.RateLimits, StreamEvent.error] (by decide),
    (c9_no_write_on_stream_failure ⟨[], []⟩ SessionSource.Interactive
      [UserInput.Text "hi".toList] [".codex".toList, "memories.md".toList]).1⟩

end Memories

section Sanity

open Memories

example : parse_memories "# Memories\n- Prefer short diffs\n* Run tests\nextra line".toList =
    ["Prefer short diffs".toList, "Run tests".toList] := by decide

example : parse_memories "# Memories\nPrefer short diffs\nRun tests".toList =
    ["Prefer short diffs".toList, "Run tests".toList] := by decide

example : parse_memory_candidates "NO_MEMORIES".toList = [] := by decide

example : parse_memory_candidates "- A\n* b\na\nc".toList =
    ["A".toList, "b".toList, "c".toList] := by decide

example : build_memories_section ["Prefer rustfmt".toList, "Run tests".toList] =
    some "## Memories\n- Prefer rustfmt\n- Run tests".toList := by decide

example : utf8Encode "aé€".toList = [0x61, 0xC3, 0xA9, 0xE2, 0x82, 0xAC] := by decide

example : utf8Lossy [0x61, 0xC3, 0xA9, 0xE2, 0x82, 0xAC] = "aé€".toList := by decide

example : utf8Lossy [0x61, 0xC3, 0x62] = ['a', replChar, 'b'] := by decide

example : read_memories_file (some (utf8Encode "# Memories\n- a\n".toList)) =
    [['a']] := by decide

example : collect_user_input_texts
    [UserInput.Text "Hello".toList, UserInput.Image, UserInput.Text "  ".toList] =
    ["Hello".toList] := by decide

example :
    (append_memories ⟨[], []⟩ [".codex".toList, "memories.md".toList]
      ["Likes dark themes".toList, "Uses tabs".toList]).2 = 2 := by decide

example :
    fsRead (append_memories ⟨[], []⟩ [".codex".toList, "memories.md".toList]
        ["a".toList]).1 [".codex".toList, "memories.md".toList] =
      some (utf8Encode "# Memories\n- a\n".toList) := by decide

end Sanity
